import Mathlib

/-!
Verification of the dask-mongo core module (src/dask_mongo/core.py).

The development shallowly embeds the code of core.py:

* Documents are modelled as pairs (id, payload) of naturals; the generated
  identifier field (the `_id` ObjectId) is the first component.  ObjectIds
  are monotonically orderable and unique, which the model renders as
  strictly increasing naturals.
* A Mongo collection is a list of such pairs in natural (storage) order.
* Fallible Python code returns `Except PyErr`; the error constructors name
  the Python exception that the corresponding line raises.
* The MongoDB aggregation stages used by core.py (`$match`, `$count`,
  `$bucketAuto`, `find ... sort`) are an external capability; they are
  modelled from their documented semantics, with a comment at each.
* The connection cache (`_FrozenKwargs`, `_cache_inner`, `_get_client`)
  is embedded over a small model of Python values, Python equality and
  Python hashing, together with an explicit model of the `lru_cache`
  dictionary, `atexit` registration and `weakref.WeakMethod`.
* The write path (`write_mongo`, `to_mongo`) is embedded over an explicit
  object store (a heap of documents addressed by index), so that the
  in-place mutation performed by `insert_many` and the shallow copies
  taken by `write_mongo` are both observable.
-/

/-- Python exceptions raised by the embedded code paths. -/
inductive PyErr where
  | stopIteration
  | zeroDivisionError
  | typeError
  | nameError
  | operationFailure
deriving DecidableEq, Repr

/-- One partition descriptor: the pair of identifier bounds that
`read_mongo` stores as `{"_id": {"min": ..., "max": ...}}`. -/
structure PartDesc where
  min : Nat
  max : Nat
deriving DecidableEq, Repr

instance : Inhabited PartDesc := ⟨⟨0, 0⟩⟩

/-- The identifier-range predicate built by `fetch_mongo`:
`{"_id": {"$gte": id_min, "$lte" if include_last else "$lt": id_max}}`. -/
def rangeB (idMin idMax : Nat) (includeLast : Bool) (k : Nat) : Bool :=
  decide (idMin ≤ k) && (if includeLast then decide (k ≤ idMax) else decide (k < idMax))

/-- `fetch_mongo`: `coll.aggregate([{"$match": match}, {"$match": match2}])`,
two sequential `$match` stages, the first the caller-supplied match filter
and the second the identifier-range filter.  A `$match` stage keeps the
input order (MongoDB documented semantics) and the input is the collection
in storage order. -/
def fetch_mongo (db : List (Nat × Nat)) (m : Nat → Bool)
    (idMin idMax : Nat) (includeLast : Bool) : List (Nat × Nat) :=
  (db.filter (fun d => m d.2)).filter (fun d => rangeB idMin idMax includeLast d.1)

/-- `coll.find(match, ...).sort("_id", 1)`: modelled from the documented
semantics of a sorted cursor, as a stable sort of the matched values. -/
def sortIds (l : List Nat) : List Nat :=
  l.insertionSort (· ≤ ·)

/-- The ascending `_id` cursor of `read_mongo`:
`coll.find(match, {"_id": 1}).sort("_id", 1)`. -/
def matchedIds (db : List (Nat × Nat)) (m : Nat → Bool) : List Nat :=
  sortIds ((db.filter (fun d => m d.2)).map Prod.fst)

/-- `coll.find_one(sort=[("_id", 1)])["_id"]`: the smallest identifier of
the whole collection (note: `read_mongo` does not apply the match filter
here).  `none` models `find_one` returning `None` on an empty collection,
in which case the subscript raises `TypeError`. -/
def minIdAll (db : List (Nat × Nat)) : Option Nat :=
  (sortIds (db.map Prod.fst)).head?

/-- The exact count of `read_mongo`:
`next(coll.aggregate([{"$match": match}, {"$count": "count"}]))["count"]`.
Modelled from the documented semantics of `$count`: on an empty input the
stage emits no document, so `next` raises `StopIteration`. -/
def countExact (db : List (Nat × Nat)) (m : Nat → Bool) : Except PyErr Nat :=
  let n := (db.filter (fun d => m d.2)).length
  if n = 0 then .error .stopIteration else .ok n

/-- `int(ceil(nrows / chunksize))` with Python true division: raises
`ZeroDivisionError` when `chunksize` is `0`, and otherwise equals the
ceiling division of the two naturals. -/
def ceilDivPy (nrows chunksize : Nat) : Except PyErr Nat :=
  if chunksize = 0 then .error .zeroDivisionError
  else .ok ((nrows + chunksize - 1) / chunksize)

/-- The partition-collecting loop of `read_mongo` (the
`for idx, doc in tqdm.tqdm(enumerate(cursor), total=nrows)` loop),
including the `if idx >= nrows: break` guard.  State threaded through the
loop: the current index, `prev_id`, and the loop variable `doc` (`none`
when `doc` has never been bound).  Returns the appended partition list
together with the final `prev_id` and `doc`. -/
def pagLoopBrk (c nrows : Nat) : List Nat → Nat → Nat → Option Nat →
    List PartDesc × Nat × Option Nat
  | [], _, prev, lastDoc => ([], prev, lastDoc)
  | x :: xs, idx, prev, _ =>
    if nrows ≤ idx then ([], prev, some x)
    else if idx % c == 0 && 0 < idx then
      let r := pagLoopBrk c nrows xs (idx + 1) x (some x)
      (⟨prev, x⟩ :: r.1, r.2)
    else
      pagLoopBrk c nrows xs (idx + 1) prev (some x)

/-- The same loop without the `break` guard; `pagLoopBrk` coincides with it
whenever the cursor has at most `nrows` documents. -/
def pagLoop (c : Nat) : List Nat → Nat → Nat → Option Nat →
    List PartDesc × Nat × Option Nat
  | [], _, prev, lastDoc => ([], prev, lastDoc)
  | x :: xs, idx, prev, _ =>
    if idx % c == 0 && 0 < idx then
      let r := pagLoop c xs (idx + 1) x (some x)
      (⟨prev, x⟩ :: r.1, r.2)
    else
      pagLoop c xs (idx + 1) prev (some x)

/-- The value of the loop variable `doc` after a run of the loop body over
a block of identifiers, starting from a previous value. -/
def lastD : List Nat → Option Nat → Option Nat
  | [], ld => ld
  | x :: xs, _ => lastD xs (some x)

/-- A closed-form characterisation of the descriptor list the paginated
scan produces: one descriptor per block of `c` identifiers, the lower
bound carried in from the previous block (initially the collection-wide
minimum), the upper bound the first identifier of the next block, and the
last upper bound the final identifier. -/
def descsSpec (lb : Nat) (ids : List Nat) (c : Nat) : List PartDesc :=
  if _h : ids.length ≤ c ∨ c = 0 then [⟨lb, ids.getLastD lb⟩]
  else ⟨lb, ids.getD c 0⟩ :: descsSpec (ids.getD c 0) (ids.drop c) c
termination_by ids.length
decreasing_by
  simp only [List.length_drop]
  omega

/-- `$bucketAuto` with `groupBy: "$_id"`, modelled from its MongoDB
documented semantics (the database side of the aggregation is an external
collaborator): the matched identifiers are distributed into at most the
requested number of buckets in ascending order, each bucket reporting its
minimum and the minimum of the next bucket as bounds, the last bucket
reporting the maximum identifier; a non-positive bucket count is rejected
by the server; an empty input produces no buckets. -/
def bucket_auto (ids : List Nat) (buckets : Nat) : Except PyErr (List PartDesc) :=
  if buckets = 0 then .error .operationFailure
  else
    match ids with
    | [] => .ok []
    | x :: _ => .ok (descsSpec x ids ((ids.length + buckets - 1) / buckets))

/-- `read_mongo`, returning the partition descriptor list from which the
Bag graph is built (one deferred `fetch_mongo` task per descriptor, and
the Bag partition count is the length of this list). -/
def read_mongo (db : List (Nat × Nat)) (m : Nat → Bool) (chunksize : Nat)
    (useEstimatedCount paginate : Bool) : Except PyErr (List PartDesc) :=
  match (if useEstimatedCount then Except.ok db.length else countExact db m) with
  | .error e => .error e
  | .ok nrows =>
    match ceilDivPy nrows chunksize with
    | .error e => .error e
    | .ok npartitions =>
      if paginate then
        let ids := matchedIds db m
        match minIdAll db with
        | none => .error .typeError
        | some firstId =>
          let r := pagLoopBrk chunksize nrows ids 0 firstId none
          match r.2.2 with
          | none => .error .nameError
          | some lastDoc => .ok (r.1 ++ [⟨r.2.1, lastDoc⟩])
      else
        bucket_auto (matchedIds db m) npartitions

/-- The deferred task built for partition ordinal `i`:
`fetch_mongo(..., partition["_id"]["min"], partition["_id"]["max"],
i == len(partitions_ids) - 1)`. -/
def fetchPart (db : List (Nat × Nat)) (m : Nat → Bool) (ds : List PartDesc)
    (i : Nat) : List (Nat × Nat) :=
  fetch_mongo db m (ds.getD i default).min (ds.getD i default).max
    (i == ds.length - 1)

/-- Computing the whole Bag: the concatenation of all partition tasks. -/
def readDocs (db : List (Nat × Nat)) (m : Nat → Bool)
    (ds : List PartDesc) : List (Nat × Nat) :=
  (List.range ds.length).flatMap (fetchPart db m ds)

/-! ## The write path

`write_mongo` and `to_mongo` are embedded over an explicit object store so
that mutation is observable: a document reference is an index into a heap
of document objects, `copy` allocates a fresh object with the same fields,
and `insert_many` assigns a generated identifier into each of its argument
objects in place (the documented pymongo behaviour that the shallow copies
guard against). -/

/-- A Python document object: a payload and an optional `"_id"` entry. -/
structure Doc where
  payload : Nat
  oid : Option Nat
deriving DecidableEq, Repr

/-- The mutable world of the write path: the object heap, the target
collection contents, the ObjectId generator (monotonically increasing),
and the number of `insert_many` calls issued against the driver. -/
structure WState where
  heap : List Doc
  db : List (Nat × Nat)
  nextOid : Nat
  insertCalls : Nat
deriving DecidableEq, Repr

/-- `copy(v)`: allocate a fresh object with the same fields and return its
address. -/
def allocCopy (a : Nat) (st : WState) : Nat × WState :=
  let d := st.heap.getD a ⟨0, none⟩
  (st.heap.length, { st with heap := st.heap ++ [d] })

/-- `[copy(v) for v in values]`. -/
def allocCopies : List Nat → WState → List Nat × WState
  | [], st => ([], st)
  | a :: as, st =>
    let (addr, st1) := allocCopy a st
    let (rest, st2) := allocCopies as st1
    (addr :: rest, st2)

/-- The document-by-document effect of a bulk insert: each argument object
receives a generated `_id` in place, and a row is appended to the
collection. -/
def insertDocs : List Nat → WState → WState
  | [], st => st
  | a :: as, st =>
    let d := st.heap.getD a ⟨0, none⟩
    insertDocs as
      { st with
        heap := st.heap.set a { d with oid := some st.nextOid },
        db := st.db ++ [(st.nextOid, d.payload)],
        nextOid := st.nextOid + 1 }

/-- `coll.insert_many(values)`: one driver call; pymongo rejects an empty
document list up front with `TypeError` (message: documents must be a
non-empty list) before inserting anything. -/
def insert_many (addrs : List Nat) (st : WState) : WState × Option PyErr :=
  let st1 := { st with insertCalls := st.insertCalls + 1 }
  if addrs.isEmpty then (st1, some .typeError)
  else (insertDocs addrs st1, none)

/-- `write_mongo`: shallow-copy every value, then bulk-insert the copies. -/
def write_mongo (values : List Nat) (st : WState) : WState × Option PyErr :=
  let (copies, st1) := allocCopies values st
  insert_many copies st1

/-- `to_mongo` with `compute=True`: `bag.map_partitions(write_mongo, ...)`
followed by a checkpoint barrier and a blocking compute.  Executed here
sequentially over the partitions; a raising partition task fails the
compute. -/
def to_mongo : List (List Nat) → WState → WState × Option PyErr
  | [], st => (st, none)
  | p :: ps, st =>
    match write_mongo p st with
    | (st1, none) => to_mongo ps st1
    | (st1, some e) => (st1, some e)

/-- The initial world for a round trip: the heap holds the documents of
the source Bag, none of which has an `"_id"` entry; the target collection
is empty. -/
def initWState (docs : List Nat) : WState :=
  ⟨docs.map (fun p => ⟨p, none⟩), [], 0, 0⟩

/-- The rows a bulk insert appends for a payload list, identifiers
assigned consecutively from `o`. -/
def rows (o : Nat) : List Nat → List (Nat × Nat)
  | [] => []
  | p :: ps => (o, p) :: rows (o + 1) ps

/-! ## The connection cache

A small model of the Python values that can appear in a connection
configuration, of Python equality and hashing over them, and of the
`lru_cache` dictionary behind `_cache_inner`. -/

/-- Python values: booleans, integers, strings, lists, tuples and dicts
(a dict is its entry list in insertion order). -/
inductive PyVal where
  | pbool (b : Bool)
  | pint (n : Int)
  | pstr (s : String)
  | plist (xs : List PyVal)
  | ptuple (xs : List PyVal)
  | pdict (kvs : List (PyVal × PyVal))

mutual

/-- Python `==`.  `bool` is a subclass of `int`, so `True == 1` and
`False == 0`; a list and a tuple never compare equal; two dicts compare
equal when they have the same length and every entry of the first is
found, by key equality, in the second with an equal value. -/
def pyEq : PyVal → PyVal → Bool
  | .pbool x, .pbool y => x == y
  | .pbool x, .pint n => ((if x then 1 else 0 : Int)) == n
  | .pint n, .pbool y => n == ((if y then 1 else 0 : Int))
  | .pint n, .pint m => n == m
  | .pstr s, .pstr t => s == t
  | .plist xs, .plist ys => pyEqList xs ys
  | .ptuple xs, .ptuple ys => pyEqList xs ys
  | .pdict kvs, .pdict kws => (kvs.length == kws.length) && pySubDict kvs kws
  | _, _ => false
termination_by a b => sizeOf a + sizeOf b
decreasing_by all_goals (simp; try omega)

/-- Elementwise equality of two sequences of equal kind. -/
def pyEqList : List PyVal → List PyVal → Bool
  | [], [] => true
  | x :: xs, y :: ys => pyEq x y && pyEqList xs ys
  | _, _ => false
termination_by xs ys => sizeOf xs + sizeOf ys
decreasing_by all_goals (simp; try omega)

/-- `k in d and d[k] == v`: scan the entry list for the first key equal to
`k` and compare its value with `v`. -/
def pyFindEq (k v : PyVal) : List (PyVal × PyVal) → Bool
  | [] => false
  | (k1, v1) :: rest => if pyEq k1 k then pyEq v v1 else pyFindEq k v rest
termination_by kvs => sizeOf k + sizeOf v + sizeOf kvs
decreasing_by all_goals (simp; try omega)

/-- Every entry of the first dict is present in the second with an equal
value. -/
def pySubDict : List (PyVal × PyVal) → List (PyVal × PyVal) → Bool
  | [], _ => true
  | (k, v) :: rest, kws => pyFindEq k v kws && pySubDict rest kws
termination_by kvs kws => sizeOf kvs + sizeOf kws
decreasing_by all_goals (simp; try omega)

end

mutual

/-- `_recursive_tupling`: a list becomes the tuple of its recursively
tupled members; a mapping becomes the tuple of its recursively tupled
`(key, value)` pairs in iteration order; anything else (including a
tuple) is returned unchanged. -/
def recursive_tupling : PyVal → PyVal
  | .plist xs => .ptuple (tuplingList xs)
  | .pdict kvs => .ptuple (tuplingPairs kvs)
  | v => v

def tuplingList : List PyVal → List PyVal
  | [] => []
  | x :: xs => recursive_tupling x :: tuplingList xs

def tuplingPairs : List (PyVal × PyVal) → List PyVal
  | [] => []
  | (k, v) :: rest => .ptuple [recursive_tupling k, recursive_tupling v] :: tuplingPairs rest

end

/-- An injective pairing, the building block of the idealised hash. -/
def hcomb (a b : Nat) : Nat := Nat.pair a b

/-- An injective code of an integer. -/
def intCode (n : Int) : Nat :=
  if n < 0 then 2 * n.natAbs + 1 else 2 * n.natAbs

/-- An injective code of a string. -/
def strCode (s : String) : Nat :=
  s.data.foldr (fun ch acc => hcomb ch.toNat acc) 0

mutual

/-- Python `hash`, idealised: structurally different hashable values get
different codes, except that a `bool` hashes exactly as the equal `int`
(in Python `hash(True) == hash(1)`).  Lists and dicts are unhashable;
hashing them raises `TypeError`, modelled as `none` (note that
`_recursive_tupling` does not recurse into tuples, so a tuple that
contains a list stays unhashable). -/
def pyHash : PyVal → Option Nat
  | .pbool b => some (hcomb 0 (intCode (if b then 1 else 0)))
  | .pint n => some (hcomb 0 (intCode n))
  | .pstr s => some (hcomb 1 (strCode s))
  | .plist _ => none
  | .pdict _ => none
  | .ptuple xs => (pyHashList xs).map (fun hs => hcomb 2 (hs.foldr hcomb 0))

def pyHashList : List PyVal → Option (List Nat)
  | [] => some []
  | x :: xs =>
    match pyHash x, pyHashList xs with
    | some h, some hs => some (h :: hs)
    | _, _ => none

end

/-- `_FrozenKwargs.__hash__`:
`hash(frozenset((tupled k, tupled v) for k, v in self.items()))`.
The hash of a frozenset is an order-insensitive combination of the element
hashes, idealised here as their sum (a dict has pairwise-unequal keys, so
the pairs are pairwise unequal and frozenset deduplication is the
identity).  `none` models the `TypeError` of hashing an unhashable
member. -/
def frozenHash (kvs : List (PyVal × PyVal)) : Option Nat :=
  (pyHashList (tuplingPairs kvs)).map (fun hs => hcomb 3 hs.sum)

/-- The connection cache state: the `lru_cache` entries (most recently
used first, each a `_FrozenKwargs` key with its opened client handle), the
handle generator, the callbacks registered with `atexit`, and the set of
client handles that have actually been closed. -/
structure CCache where
  entries : List (List (PyVal × PyVal) × Nat)
  nextHandle : Nat
  atexitRegs : List Nat
  closed : List Nat

def emptyCache : CCache := ⟨[], 0, [], []⟩

/-- CPython dict probing for the `lru_cache` key: a stored key matches the
probe when the hashes compare equal and the keys compare equal
(`_FrozenKwargs` overrides only `__hash__` and inherits `dict.__eq__`).
`lru_cache` was created with `typed=True`, which also compares the type of
each positional argument, but the single argument is always a
`_FrozenKwargs`, so the type component never distinguishes two calls. -/
def keyMatch (stored probe : List (PyVal × PyVal)) : Bool :=
  (frozenHash stored == frozenHash probe) && pyEq (.pdict stored) (.pdict probe)

def _CACHE_SIZE : Nat := 16

/-- `_cache_inner`: the `lru_cache(_CACHE_SIZE, typed=True)` wrapper around
opening a `MongoClient` and registering `weakref.WeakMethod(client.close)`
with `atexit`.  A hit moves the entry to the front; a miss opens a new
handle, registers its close method reference with `atexit`, inserts the
entry in front and discards everything beyond the capacity.  The discarded
entry is dropped without any close call. -/
def cache_inner (kw : List (PyVal × PyVal)) (st : CCache) : Nat × CCache :=
  match st.entries.find? (fun e => keyMatch e.1 kw) with
  | some e =>
    (e.2, { st with entries := e :: st.entries.eraseP (fun e2 => keyMatch e2.1 kw) })
  | none =>
    let h := st.nextHandle
    (h, { st with
      entries := ((kw, h) :: st.entries).take _CACHE_SIZE,
      nextHandle := h + 1,
      atexitRegs := h :: st.atexitRegs })

/-- `_get_client(kwargs)`: `_cache_inner(_FrozenKwargs(kwargs))`.  The
wrapper changes only hashing and equality of the key, which `keyMatch`
embodies. -/
def get_client (kw : List (PyVal × PyVal)) (st : CCache) : Nat × CCache :=
  cache_inner kw st

/-- A callback registered with `atexit`:
`weakref.WeakMethod(client.close)` for the client handle `h`. -/
inductive ExitCb where
  | weakMethodClose (h : Nat)

/-- Invoking one registered callback: `atexit` calls the registered
callable with no arguments; calling a `weakref.WeakMethod` dereferences it
and returns the bound method (or `None` once the referent is gone) without
invoking it, so no client is closed. -/
def runExitCb (closed : List Nat) : ExitCb → List Nat
  | .weakMethodClose _ => closed

/-- Process exit: run every callback registered with `atexit`. -/
def runAtexit (st : CCache) : CCache :=
  { st with closed := (st.atexitRegs.map ExitCb.weakMethodClose).foldl runExitCb st.closed }

/-- A sequence of `_get_client` calls starting from the empty cache. -/
def runClients (kws : List (List (PyVal × PyVal))) : CCache :=
  kws.foldl (fun st kw => (get_client kw st).2) emptyCache

/-- Pairwise distinctness (in both comparison orders) of the keys of a
dict entry list: the invariant every real Python dict enjoys. -/
def distinctKeysB : List (PyVal × PyVal) → Bool
  | [] => true
  | (k, _) :: rest =>
    rest.all (fun kv => !pyEq k kv.1 && !pyEq kv.1 k) && distinctKeysB rest

mutual

/-- Well-formedness of a Python value: every dict nested anywhere inside
it has pairwise-distinct keys.  Any value built by the Python runtime
satisfies this. -/
def wfB : PyVal → Bool
  | .plist xs => wfList xs
  | .ptuple xs => wfList xs
  | .pdict kvs => distinctKeysB kvs && wfPairs kvs
  | _ => true

def wfList : List PyVal → Bool
  | [] => true
  | x :: xs => wfB x && wfList xs

def wfPairs : List (PyVal × PyVal) → Bool
  | [] => true
  | (k, v) :: rest => wfB k && wfB v && wfPairs rest

end

/-! # Theorems

First the correspondence between the paginated-scan loop and its
closed-form descriptor list, then the covering and sizing facts about the
descriptors, then the claim theorems. -/

theorem lastD_eq_getLastD (xs : List Nat) : ∀ d, lastD xs (some d) = some (xs.getLastD d) := by
  induction xs with
  | nil => intro d; rfl
  | cons x xs ih => intro d; rw [lastD, ih, List.getLastD_cons]

theorem pagLoopBrk_eq_pagLoop (c nrows : Nat) :
    ∀ (xs : List Nat) (idx prev : Nat) (ld : Option Nat), idx + xs.length ≤ nrows →
      pagLoopBrk c nrows xs idx prev ld = pagLoop c xs idx prev ld := by
  intro xs
  induction xs with
  | nil => intros; rfl
  | cons x xs ih =>
    intro idx prev ld h
    simp only [List.length_cons] at h
    have hlt : ¬ nrows ≤ idx := by omega
    simp only [pagLoopBrk, pagLoop, if_neg hlt]
    by_cases hcond : (idx % c == 0 && decide (0 < idx)) = true
    · rw [if_pos hcond, if_pos hcond, ih _ _ _ (by omega)]
    · rw [if_neg hcond, if_neg hcond, ih _ _ _ (by omega)]

theorem pagLoop_shift (c : Nat) :
    ∀ (xs : List Nat) (idx idx' prev : Nat) (ld : Option Nat),
      idx % c = idx' % c → (idx = 0 ↔ idx' = 0) →
      pagLoop c xs idx prev ld = pagLoop c xs idx' prev ld := by
  intro xs
  induction xs with
  | nil => intros; rfl
  | cons x xs ih =>
    intro idx idx' prev ld h1 h2
    have h3 : (0 < idx) ↔ (0 < idx') := by omega
    have hmod : (idx + 1) % c = (idx' + 1) % c := by
      rw [Nat.add_mod, h1, ← Nat.add_mod]
    simp only [pagLoop]
    rw [h1, decide_eq_decide.mpr h3]
    by_cases hcond : (idx' % c == 0 && decide (0 < idx')) = true
    · rw [if_pos hcond, if_pos hcond, ih _ _ _ _ hmod (by omega)]
    · rw [if_neg hcond, if_neg hcond, ih _ _ _ _ hmod (by omega)]

theorem pagLoop_append (c : Nat) :
    ∀ (as bs : List Nat) (idx prev : Nat) (ld : Option Nat),
      pagLoop c (as ++ bs) idx prev ld =
        ((pagLoop c as idx prev ld).1 ++
           (pagLoop c bs (idx + as.length) (pagLoop c as idx prev ld).2.1
             (pagLoop c as idx prev ld).2.2).1,
         (pagLoop c bs (idx + as.length) (pagLoop c as idx prev ld).2.1
             (pagLoop c as idx prev ld).2.2).2) := by
  intro as
  induction as with
  | nil => intro bs idx prev ld; simp [pagLoop]
  | cons a as ih =>
    intro bs idx prev ld
    have harith : idx + (a :: as).length = (idx + 1) + as.length := by
      simp; omega
    simp only [List.cons_append, pagLoop]
    by_cases hcond : (idx % c == 0 && decide (0 < idx)) = true
    · rw [if_pos hcond, if_pos hcond]
      simp only [List.append_eq]
      rw [harith, ih]
      rfl
    · rw [if_neg hcond, if_neg hcond]
      simp only [List.append_eq]
      rw [harith, ih]

theorem pagLoop_notrig (c : Nat) :
    ∀ (as : List Nat) (idx prev : Nat) (ld : Option Nat),
      0 < idx → idx + as.length ≤ c →
      pagLoop c as idx prev ld = ([], prev, lastD as ld) := by
  intro as
  induction as with
  | nil => intros; rfl
  | cons a as ih =>
    intro idx prev ld hpos hle
    simp only [List.length_cons] at hle
    have hlt : idx < c := by omega
    have hcond : (idx % c == 0 && decide (0 < idx)) = false := by
      rw [Nat.mod_eq_of_lt hlt]
      simp
      try omega
    simp only [pagLoop, hcond, Bool.false_eq_true, if_false, lastD]
    exact ih _ _ _ (by omega) (by omega)

theorem getD_eq_getElem_of_lt {α : Type} (l : List α) (n : Nat) (d : α) (h : n < l.length) :
    l.getD n d = l[n] := by
  simp [List.getD_eq_getElem?_getD, List.getElem?_eq_getElem h]

theorem pagLoop_chunkrec (c : Nat) (hc : 0 < c) (xs : List Nat) (p : Nat) (ld : Option Nat) :
    pagLoop c xs 1 p ld =
      if xs.length < c then ([], p, lastD xs ld)
      else
        (⟨p, xs.getD (c - 1) 0⟩ ::
           (pagLoop c (xs.drop c) 1 (xs.getD (c - 1) 0) (some (xs.getD (c - 1) 0))).1,
         (pagLoop c (xs.drop c) 1 (xs.getD (c - 1) 0) (some (xs.getD (c - 1) 0))).2) := by
  by_cases hlen : xs.length < c
  · rw [if_pos hlen, pagLoop_notrig c xs 1 p ld (by omega) (by omega)]
  · rw [if_neg hlen]
    push_neg at hlen
    have hc1 : c - 1 < xs.length := by omega
    have hb : xs.getD (c - 1) 0 = xs[c - 1] := getD_eq_getElem_of_lt xs (c - 1) 0 hc1
    have hdrop : xs.drop (c - 1) = xs[c - 1] :: xs.drop c := by
      have he : c - 1 + 1 = c := by omega
      rw [List.drop_eq_getElem_cons hc1, he]
    have hsplit : xs = xs.take (c - 1) ++ (xs[c - 1] :: xs.drop c) := by
      rw [← hdrop, List.take_append_drop]
    have htakelen : (xs.take (c - 1)).length = c - 1 := by
      simp
      omega
    calc pagLoop c xs 1 p ld
        = pagLoop c (xs.take (c - 1) ++ (xs[c - 1] :: xs.drop c)) 1 p ld := by
          rw [← hsplit]
      _ = (⟨p, xs[c - 1]⟩ :: (pagLoop c (xs.drop c) 1 xs[c - 1] (some xs[c - 1])).1,
           (pagLoop c (xs.drop c) 1 xs[c - 1] (some xs[c - 1])).2) := by
          rw [pagLoop_append]
          rw [pagLoop_notrig c _ 1 p ld (by omega) (by omega)]
          simp only [htakelen]
          have hidx : 1 + (c - 1) = c := by omega
          rw [hidx]
          simp only [pagLoop]
          have hcond : (c % c == 0 && decide (0 < c)) = true := by
            simp [Nat.mod_self]
            omega
          rw [if_pos hcond]
          rw [pagLoop_shift c (xs.drop c) (c + 1) 1 _ _ (by rw [Nat.add_mod_left]) (by omega)]
          simp
    rw [hb]

theorem descsSpec_ne_nil (lb : Nat) (ids : List Nat) (c : Nat) : descsSpec lb ids c ≠ [] := by
  rw [descsSpec]
  split
  · simp
  · simp

theorem pagLoop_run_descsSpec (c : Nat) (hc : 0 < c) :
    ∀ (n : Nat) (ids : List Nat) (lb : Nat), ids.length ≤ n → ids ≠ [] →
      ∃ ps pv d, pagLoop c ids 0 lb none = (ps, pv, some d) ∧
        ps ++ [⟨pv, d⟩] = descsSpec lb ids c := by
  intro n
  induction n with
  | zero =>
    intro ids lb hlen hne
    cases ids with
    | nil => exact absurd rfl hne
    | cons x xs => simp at hlen
  | succ n ih =>
    intro ids lb hlen hne
    obtain ⟨x, xs, rfl⟩ := List.exists_cons_of_ne_nil hne
    have h0 : pagLoop c (x :: xs) 0 lb none = pagLoop c xs 1 lb (some x) := by
      simp only [pagLoop]
      have hcond : ((0 : Nat) % c == 0 && decide (0 < (0 : Nat))) = false := by simp
      rw [hcond]
      simp
    rw [h0, pagLoop_chunkrec c hc]
    by_cases hlen2 : xs.length < c
    · rw [if_pos hlen2]
      refine ⟨[], lb, xs.getLastD x, ?_, ?_⟩
      · rw [lastD_eq_getLastD]
      · rw [descsSpec]
        rw [dif_pos (by simp; omega)]
        rw [List.getLastD_cons]
        simp
    · rw [if_neg hlen2]
      push_neg at hlen2
      have hdropc : (x :: xs).drop c = xs.drop (c - 1) := by
        obtain ⟨k, rfl⟩ : ∃ k, c = k + 1 := ⟨c - 1, by omega⟩
        simp
      have hc1 : c - 1 < xs.length := by omega
      have hb : xs.getD (c - 1) 0 = xs[c - 1] := getD_eq_getElem_of_lt xs (c - 1) 0 hc1
      have hdrop2 : xs.drop (c - 1) = xs[c - 1] :: xs.drop c := by
        have he : c - 1 + 1 = c := by omega
        rw [List.drop_eq_getElem_cons hc1, he]
      have hinner : pagLoop c ((x :: xs).drop c) 0 (xs.getD (c - 1) 0) none =
          pagLoop c (xs.drop c) 1 (xs.getD (c - 1) 0) (some (xs.getD (c - 1) 0)) := by
        rw [hdropc, hdrop2, hb]
        simp only [pagLoop]
        have hcond : ((0 : Nat) % c == 0 && decide (0 < (0 : Nat))) = false := by simp
        rw [hcond]
        simp
      have hlen3 : ((x :: xs).drop c).length ≤ n := by
        simp only [List.length_drop, List.length_cons]
        simp only [List.length_cons] at hlen
        omega
      have hne3 : (x :: xs).drop c ≠ [] := by
        rw [hdropc, hdrop2]
        simp
      obtain ⟨ps, pv, d, h1, h2⟩ := ih ((x :: xs).drop c) (xs.getD (c - 1) 0) hlen3 hne3
      rw [hinner] at h1
      refine ⟨⟨lb, xs.getD (c - 1) 0⟩ :: ps, pv, d, ?_, ?_⟩
      · rw [h1]
      · rw [descsSpec]
        rw [dif_neg (by simp; omega)]
        have hgd : (x :: xs).getD c 0 = xs.getD (c - 1) 0 := by
          have : c = (c - 1) + 1 := by omega
          rw [this]
          simp [List.getD_cons_succ]
        rw [hgd, ← h2]
        simp

theorem getLastD_mem : ∀ (l : List Nat) (d : Nat), l ≠ [] → l.getLastD d ∈ l := by
  intro l
  induction l with
  | nil => intro d h; exact absurd rfl h
  | cons x xs ih =>
    intro d _
    rw [List.getLastD_cons]
    cases hxs : xs with
    | nil => simp
    | cons y ys =>
      have := ih x (by rw [hxs]; simp)
      rw [hxs] at this
      right
      rw [← hxs] at this ⊢
      exact this

theorem key_le_getLastD {α : Type} (key : α → Nat) :
    ∀ (l : List α) (d : Nat), l.Pairwise (fun a b => key a < key b) →
      ∀ a ∈ l, key a ≤ (l.map key).getLastD d := by
  intro l
  induction l with
  | nil => intro d _ a ha; exact absurd ha (List.not_mem_nil a)
  | cons x xs ih =>
    intro d hsort a ha
    rw [List.map_cons, List.getLastD_cons]
    rcases List.mem_cons.1 ha with rfl | hmem
    · by_cases hxs : xs = []
      · subst hxs
        simp
      · have hne : xs.map key ≠ [] := by simpa using hxs
        have hmem2 := getLastD_mem (xs.map key) (key a) hne
        obtain ⟨b, hb, hbeq⟩ := List.mem_map.1 hmem2
        rw [← hbeq]
        exact le_of_lt ((List.pairwise_cons.1 hsort).1 b hb)
    · exact ih (key x) (List.pairwise_cons.1 hsort).2 a hmem

theorem mem_take_getElem {α : Type} (l : List α) (c : Nat) (a : α) (h : a ∈ l.take c) :
    ∃ i, ∃ hi : i < l.length, i < c ∧ l[i] = a := by
  obtain ⟨i, hi, hget⟩ := List.mem_iff_getElem.1 h
  have hlen : i < l.length ∧ i < c := by
    have := hi
    simp at this
    omega
  refine ⟨i, hlen.1, hlen.2, ?_⟩
  rw [← hget, List.getElem_take]

theorem mem_drop_getElem {α : Type} (l : List α) (c : Nat) (a : α) (h : a ∈ l.drop c) :
    ∃ j, ∃ hj : c + j < l.length, l[c + j] = a := by
  obtain ⟨j, hj, hget⟩ := List.mem_iff_getElem.1 h
  have hlen : c + j < l.length := by
    have := hj
    simp at this
    omega
  refine ⟨j, hlen, ?_⟩
  rw [← hget, List.getElem_drop]

theorem sorted_key_lt_getElem {α : Type} (key : α → Nat) (l : List α)
    (hs : l.Pairwise (fun a b => key a < key b)) (i j : Nat)
    (hi : i < l.length) (hj : j < l.length) (hij : i < j) : key l[i] < key l[j] :=
  List.pairwise_iff_getElem.1 hs i j hi hj hij

theorem sorted_key_le_drop {α : Type} (key : α → Nat) (l : List α)
    (hs : l.Pairwise (fun a b => key a < key b)) (c : Nat) (hc : c < l.length) :
    ∀ a ∈ l.drop c, key l[c] ≤ key a := by
  intro a ha
  obtain ⟨j, hj, hget⟩ := mem_drop_getElem l c a ha
  rw [← hget]
  cases j with
  | zero => rfl
  | succ j => exact le_of_lt (sorted_key_lt_getElem key l hs c (c + (j + 1)) hc hj (by omega))

theorem sorted_key_lt_take {α : Type} (key : α → Nat) (l : List α)
    (hs : l.Pairwise (fun a b => key a < key b)) (c : Nat) (hc : c < l.length) :
    ∀ a ∈ l.take c, key a < key l[c] := by
  intro a ha
  obtain ⟨i, hi, hic, hget⟩ := mem_take_getElem l c a ha
  rw [← hget]
  exact sorted_key_lt_getElem key l hs i c hi hc hic

theorem sorted_le_drop (ids : List Nat) (hs : ids.Pairwise (· ≤ ·)) (c : Nat)
    (hc : c < ids.length) : ∀ x ∈ ids.drop c, ids[c] ≤ x := by
  intro x hx
  obtain ⟨j, hj, hget⟩ := mem_drop_getElem ids c x hx
  rw [← hget]
  cases j with
  | zero => rfl
  | succ j => exact List.pairwise_iff_getElem.1 hs c (c + (j + 1)) hc hj (by omega)

theorem descsSpec_min_ge :
    ∀ (n : Nat) (ids : List Nat) (lb c : Nat), ids.length ≤ n →
      ids.Pairwise (· ≤ ·) → (∀ x ∈ ids, lb ≤ x) →
      ∀ dsc ∈ descsSpec lb ids c, lb ≤ dsc.min := by
  intro n
  induction n with
  | zero =>
    intro ids lb c hlen _ _ dsc hdsc
    have : ids = [] := by
      cases ids with
      | nil => rfl
      | cons x xs => simp at hlen
    subst this
    rw [descsSpec, dif_pos (by simp)] at hdsc
    simp at hdsc
    subst hdsc
    exact le_refl lb
  | succ n ih =>
    intro ids lb c hlen hsort hall dsc hdsc
    rw [descsSpec] at hdsc
    split at hdsc
    · simp at hdsc
      subst hdsc
      exact le_refl lb
    · rename_i hcond
      push_neg at hcond
      have hclen : c < ids.length := by omega
      have hb : ids.getD c 0 = ids[c] := getD_eq_getElem_of_lt ids c 0 hclen
      rcases List.mem_cons.1 hdsc with rfl | hmem
      · exact le_refl lb
      · have hlb_b : lb ≤ ids.getD c 0 := by
          rw [hb]
          exact hall _ (List.getElem_mem hclen)
        refine le_trans hlb_b (ih (ids.drop c) (ids.getD c 0) c ?_ ?_ ?_ dsc hmem)
        · simp
          omega
        · exact hsort.sublist (List.drop_sublist c ids)
        · intro x hx
          rw [hb]
          exact sorted_le_drop ids hsort c hclen x hx

theorem filter_take_drop {α : Type} (l : List α) (p : α → Bool) (c : Nat) :
    l.filter p = (l.take c).filter p ++ (l.drop c).filter p := by
  conv_lhs => rw [← List.take_append_drop c l]
  rw [List.filter_append]

theorem rangeB_incl_iff (lo hi k : Nat) : rangeB lo hi true k = true ↔ lo ≤ k ∧ k ≤ hi := by
  simp [rangeB]

theorem rangeB_excl_iff (lo hi k : Nat) : rangeB lo hi false k = true ↔ lo ≤ k ∧ k < hi := by
  simp [rangeB]

theorem rangeB_false_of_lt_min (lo hi k : Nat) (b : Bool) (h : k < lo) :
    rangeB lo hi b k = false := by
  simp only [rangeB]
  have hd : decide (lo ≤ k) = false := decide_eq_false_iff_not.2 (by omega)
  rw [hd, Bool.false_and]

theorem descsSpec_cover {α : Type} (key : α → Nat) (c : Nat) (hc : 0 < c) :
    ∀ (n : Nat) (l : List α) (lb : Nat), l.length ≤ n → l ≠ [] →
      l.Pairwise (fun a b => key a < key b) →
      (∀ a ∈ l, lb ≤ key a) →
      (descsSpec lb (l.map key) c).length = (l.length + c - 1) / c ∧
      ∀ i, i < (descsSpec lb (l.map key) c).length →
        l.filter (fun a =>
          rangeB ((descsSpec lb (l.map key) c).getD i default).min
            ((descsSpec lb (l.map key) c).getD i default).max
            (i == (descsSpec lb (l.map key) c).length - 1) (key a)) =
          (l.drop (i * c)).take c := by
  intro n
  induction n with
  | zero =>
    intro l lb hlen hne _ _
    cases l with
    | nil => exact absurd rfl hne
    | cons x xs => simp at hlen
  | succ n ih =>
    intro l lb hlen hne hsort hlb
    have hlpos : 0 < l.length := List.length_pos.2 hne
    by_cases hsmall : l.length ≤ c
    · have hds : descsSpec lb (l.map key) c = [⟨lb, (l.map key).getLastD lb⟩] := by
        rw [descsSpec, dif_pos (by simp; omega)]
      rw [hds]
      refine ⟨?_, ?_⟩
      · simp only [List.length_singleton]
        symm
        exact Nat.div_eq_of_lt_le (by omega) (by omega)
      · intro i hi
        simp only [List.length_singleton] at hi
        have hi0 : i = 0 := by omega
        subst hi0
        simp only [Nat.zero_mul, List.drop_zero]
        rw [List.take_of_length_le hsmall]
        apply List.filter_eq_self.2
        intro a ha
        have h1 : lb ≤ key a := hlb a ha
        have h2 : key a ≤ (l.map key).getLastD lb := key_le_getLastD key l lb hsort a ha
        simp only [List.getD_cons_zero, List.length_singleton]
        have h00 : ((0 : Nat) == 1 - 1) = true := rfl
        rw [h00]
        exact (rangeB_incl_iff _ _ _).2 ⟨h1, h2⟩
    · push_neg at hsmall
      have hclen : c < l.length := hsmall
      have hbmap : (l.map key).getD c 0 = key l[c] := by
        have hcm : c < (l.map key).length := by simpa using hclen
        rw [getD_eq_getElem_of_lt _ _ _ hcm, List.getElem_map]
      have hmapdrop : (l.map key).drop c = (l.drop c).map key := by
        rw [List.map_drop]
      have hds : descsSpec lb (l.map key) c =
          ⟨lb, key l[c]⟩ :: descsSpec (key l[c]) ((l.drop c).map key) c := by
        rw [descsSpec, dif_neg (by simp; omega), hbmap, hmapdrop]
      have hlen' : (l.drop c).length ≤ n := by
        simp only [List.length_drop]
        omega
      have hne' : l.drop c ≠ [] := by
        have hld : (l.drop c).length ≠ 0 := by
          simp only [List.length_drop]
          omega
        intro hnil
        rw [hnil] at hld
        simp at hld
      have hsort' : (l.drop c).Pairwise (fun a b => key a < key b) :=
        hsort.sublist (List.drop_sublist c l)
      have hlb' : ∀ a ∈ l.drop c, key l[c] ≤ key a :=
        sorted_key_le_drop key l hsort c hclen
      obtain ⟨ihlen, ihchunks⟩ := ih (l.drop c) (key l[c]) hlen' hne' hsort' hlb'
      set ds' := descsSpec (key l[c]) ((l.drop c).map key) c with hds'
      have hdsne : ds' ≠ [] := descsSpec_ne_nil _ _ _
      have hdslen : 0 < ds'.length := List.length_pos.2 hdsne
      refine ⟨?_, ?_⟩
      · rw [hds]
        simp only [List.length_cons]
        rw [ihlen]
        simp only [List.length_drop]
        have heq : l.length + c - 1 = (l.length - c + c - 1) + c := by omega
        rw [heq, Nat.add_div_right _ hc]
      · intro i hi
        rw [hds] at hi ⊢
        simp only [List.length_cons] at hi ⊢
        cases i with
        | zero =>
          have hinc : ((0 : Nat) == ds'.length + 1 - 1) = false :=
            beq_eq_false_iff_ne.2 (by omega)
          rw [List.getD_cons_zero, hinc]
          simp only [Nat.zero_mul, List.drop_zero]
          rw [filter_take_drop l _ c]
          have hfa : (l.take c).filter
              (fun a => rangeB lb (key l[c]) false (key a)) = l.take c := by
            apply List.filter_eq_self.2
            intro a ha
            have h1 : lb ≤ key a := hlb a (List.take_subset c l ha)
            have h2 : key a < key l[c] := sorted_key_lt_take key l hsort c hclen a ha
            exact (rangeB_excl_iff _ _ _).2 ⟨h1, h2⟩
          have hfb : (l.drop c).filter
              (fun a => rangeB lb (key l[c]) false (key a)) = [] := by
            apply List.filter_eq_nil_iff.2
            intro a ha
            have h2 : key l[c] ≤ key a := hlb' a ha
            rw [rangeB_excl_iff]
            omega
          rw [hfa, hfb, List.append_nil]
        | succ j =>
          have hj : j < ds'.length := by omega
          rw [List.getD_cons_succ]
          have hinc : ((j + 1 : Nat) == ds'.length + 1 - 1) = ((j : Nat) == ds'.length - 1) := by
            by_cases hjj : j = ds'.length - 1
            · rw [beq_iff_eq.2 (by omega), beq_iff_eq.2 hjj]
            · rw [beq_eq_false_iff_ne.2 (by omega), beq_eq_false_iff_ne.2 hjj]
          rw [hinc]
          have hmem : ds'.getD j default ∈ ds' := by
            rw [getD_eq_getElem_of_lt _ _ _ hj]
            exact List.getElem_mem hj
          have hminge : key l[c] ≤ (ds'.getD j default).min := by
            refine descsSpec_min_ge ((l.drop c).map key).length ((l.drop c).map key)
              (key l[c]) c (le_refl _) ?_ ?_ _ hmem
            · rw [List.pairwise_map]
              exact hsort'.imp le_of_lt
            · intro x hx
              obtain ⟨b, hb, rfl⟩ := List.mem_map.1 hx
              exact hlb' b hb
          rw [filter_take_drop l _ c]
          have hfa : (l.take c).filter
              (fun a => rangeB (ds'.getD j default).min (ds'.getD j default).max
                ((j : Nat) == ds'.length - 1) (key a)) = [] := by
            apply List.filter_eq_nil_iff.2
            intro a ha
            have h2 : key a < key l[c] := sorted_key_lt_take key l hsort c hclen a ha
            have hkmin : key a < (ds'.getD j default).min := by omega
            rw [rangeB_false_of_lt_min _ _ _ _ hkmin]
            simp
          rw [hfa, List.nil_append, ihchunks j hj, List.drop_drop]
          congr 1
          ring

theorem chunks_join (c : Nat) (hc : 0 < c) :
    ∀ (n : Nat) (l : List (Nat × Nat)), l.length ≤ n →
      (List.range ((l.length + c - 1) / c)).flatMap (fun i => (l.drop (i * c)).take c) = l := by
  intro n
  induction n with
  | zero =>
    intro l hlen
    have hl : l = [] := by
      cases l with
      | nil => rfl
      | cons x xs => simp at hlen
    subst hl
    have h0 : ((0 : Nat) + c - 1) / c = 0 := Nat.div_eq_of_lt (by omega)
    simp [h0]
  | succ n ih =>
    intro l hlen
    by_cases hnil : l = []
    · subst hnil
      have h0 : ((0 : Nat) + c - 1) / c = 0 := Nat.div_eq_of_lt (by omega)
      simp [h0]
    · have hlpos : 0 < l.length := List.length_pos.2 hnil
      by_cases hsmall : l.length ≤ c
      · have h1 : (l.length + c - 1) / c = 1 :=
          Nat.div_eq_of_lt_le (by omega) (by omega)
        rw [h1]
        have hr1 : List.range 1 = [0] := rfl
        rw [hr1]
        simp only [List.flatMap_cons, List.flatMap_nil, List.append_nil,
          Nat.zero_mul, List.drop_zero]
        exact List.take_of_length_le hsmall
      · push_neg at hsmall
        have hm : (l.length + c - 1) / c = ((l.drop c).length + c - 1) / c + 1 := by
          simp only [List.length_drop]
          have heq : l.length + c - 1 = (l.length - c + c - 1) + c := by omega
          rw [heq, Nat.add_div_right _ hc]
        rw [hm, List.range_succ_eq_map]
        rw [List.flatMap_cons]
        simp only [Nat.zero_mul, List.drop_zero]
        rw [List.flatMap_map]
        have hstep : ∀ i ∈ List.range (((l.drop c).length + c - 1) / c),
            (l.drop ((i + 1) * c)).take c = ((l.drop c).drop (i * c)).take c := by
          intro i _
          rw [List.drop_drop]
          congr 1
          ring
        rw [List.flatMap_congr hstep]
        rw [ih (l.drop c) (by simp only [List.length_drop]; omega)]
        exact List.take_append_drop c l

theorem chunks_disjoint (l : List (Nat × Nat)) (hnd : l.Nodup) (c : Nat)
    (i j : Nat) (hij : i < j) (d : Nat × Nat)
    (hdi : d ∈ (l.drop (i * c)).take c) (hdj : d ∈ (l.drop (j * c)).take c) : False := by
  obtain ⟨a, ha1, ha2, ha3⟩ := mem_take_getElem _ c d hdi
  obtain ⟨b, hb1, hb2, hb3⟩ := mem_take_getElem _ c d hdj
  rw [List.getElem_drop] at ha3 hb3
  have hia : i * c + a < l.length := by
    have := ha1
    simp only [List.length_drop] at this
    omega
  have hjb : j * c + b < l.length := by
    have := hb1
    simp only [List.length_drop] at this
    omega
  have hmul : (i + 1) * c ≤ j * c := Nat.mul_le_mul_right c (by omega)
  have hexp : (i + 1) * c = i * c + c := by ring
  have hne : i * c + a ≠ j * c + b := by omega
  exact hne (List.Nodup.getElem_inj_iff hnd |>.mp (ha3.trans hb3.symm))

theorem matchedIds_eq (db : List (Nat × Nat)) (m : Nat → Bool)
    (hdb : db.Pairwise (fun a b => a.1 < b.1)) :
    matchedIds db m = (db.filter (fun d => m d.2)).map Prod.fst := by
  unfold matchedIds sortIds
  apply List.Sorted.insertionSort_eq
  have h1 : ((db.filter (fun d => m d.2)).map Prod.fst).Pairwise (· ≤ ·) := by
    rw [List.pairwise_map]
    exact (hdb.filter _).imp le_of_lt
  exact h1

theorem minIdAll_cons (d0 : Nat × Nat) (rest : List (Nat × Nat))
    (hdb : (d0 :: rest).Pairwise (fun a b => a.1 < b.1)) :
    minIdAll (d0 :: rest) = some d0.1 := by
  unfold minIdAll sortIds
  have h1 : ((d0 :: rest).map Prod.fst).Pairwise (· ≤ ·) := by
    rw [List.pairwise_map]
    exact hdb.imp le_of_lt
  rw [List.Sorted.insertionSort_eq h1]
  rfl

theorem countExact_ok (db : List (Nat × Nat)) (m : Nat → Bool)
    (hne : db.filter (fun d => m d.2) ≠ []) :
    countExact db m = .ok (db.filter (fun d => m d.2)).length := by
  unfold countExact
  rw [if_neg]
  intro h0
  exact hne (List.length_eq_zero.1 h0)

theorem ceilDivPy_ok (nrows c : Nat) (hc : 0 < c) :
    ceilDivPy nrows c = .ok ((nrows + c - 1) / c) := by
  unfold ceilDivPy
  rw [if_neg (by omega)]

theorem read_mongo_paginate_form (db : List (Nat × Nat)) (m : Nat → Bool) (c : Nat)
    (hdb : db.Pairwise (fun a b => a.1 < b.1)) (hc : 0 < c)
    (hne : db.filter (fun d => m d.2) ≠ []) :
    ∃ lb, read_mongo db m c false true =
        .ok (descsSpec lb ((db.filter (fun d => m d.2)).map Prod.fst) c) ∧
      ∀ a ∈ db.filter (fun d => m d.2), lb ≤ a.1 := by
  have hdbne : db ≠ [] := by
    intro h
    rw [h] at hne
    simp at hne
  obtain ⟨d0, rest, rfl⟩ := List.exists_cons_of_ne_nil hdbne
  refine ⟨d0.1, ?_, ?_⟩
  · unfold read_mongo
    simp only [countExact_ok _ _ hne, ceilDivPy_ok _ _ hc, Bool.false_eq_true, if_false,
      if_true, matchedIds_eq _ _ hdb, minIdAll_cons d0 rest hdb]
    set ids := ((d0 :: rest).filter (fun d => m d.2)).map Prod.fst with hids
    have hidslen : ids.length = ((d0 :: rest).filter (fun d => m d.2)).length := by
      rw [hids, List.length_map]
    have hbrk : pagLoopBrk c ((d0 :: rest).filter (fun d => m d.2)).length ids 0 d0.1 none =
        pagLoop c ids 0 d0.1 none := by
      apply pagLoopBrk_eq_pagLoop
      omega
    have hidsne : ids ≠ [] := by
      rw [hids]
      intro h0
      exact hne (List.map_eq_nil.1 h0)
    obtain ⟨ps, pv, d, h1, h2⟩ :=
      pagLoop_run_descsSpec c hc ids.length ids d0.1 (le_refl _) hidsne
    simp only [hbrk, h1]
    rw [h2]
  · intro a ha
    have hmemdb : a ∈ d0 :: rest := List.mem_of_mem_filter ha
    rcases List.mem_cons.1 hmemdb with rfl | hmem
    · exact le_refl _
    · exact le_of_lt ((List.pairwise_cons.1 hdb).1 a hmem)

theorem bucket_auto_cons (x : Nat) (xs : List Nat) (b : Nat) (hb : b ≠ 0) :
    bucket_auto (x :: xs) b = .ok (descsSpec x (x :: xs) ((xs.length + 1 + b - 1) / b)) := by
  unfold bucket_auto
  rw [if_neg hb]
  simp only [List.length_cons]

theorem read_mongo_bucket_form (db : List (Nat × Nat)) (m : Nat → Bool) (c : Nat)
    (hdb : db.Pairwise (fun a b => a.1 < b.1)) (hc : 0 < c)
    (hne : db.filter (fun d => m d.2) ≠ []) :
    ∃ lb g, 0 < g ∧ read_mongo db m c false false =
        .ok (descsSpec lb ((db.filter (fun d => m d.2)).map Prod.fst) g) ∧
      ∀ a ∈ db.filter (fun d => m d.2), lb ≤ a.1 := by
  set l := db.filter (fun d => m d.2) with hl
  have hlne : l ≠ [] := hne
  obtain ⟨a0, lrest, hlcons⟩ := List.exists_cons_of_ne_nil hlne
  have hlen : 0 < l.length := List.length_pos.2 hlne
  have hsortl : l.Pairwise (fun a b => a.1 < b.1) := hdb.filter _
  have hnpart : 0 < (l.length + c - 1) / c := Nat.div_pos (by omega) hc
  refine ⟨a0.1, (l.length + (l.length + c - 1) / c - 1) / ((l.length + c - 1) / c),
    ?_, ?_, ?_⟩
  · exact Nat.div_pos (by omega) hnpart
  · unfold read_mongo
    simp only [countExact_ok _ _ hne, ceilDivPy_ok _ _ hc, Bool.false_eq_true, if_false,
      if_true, matchedIds_eq _ _ hdb]
    rw [← hl]
    have hmapcons : l.map Prod.fst = a0.1 :: lrest.map Prod.fst := by
      rw [hlcons, List.map_cons]
    rw [hmapcons, bucket_auto_cons _ _ _ (by omega)]
    have hlenrw : (lrest.map Prod.fst).length + 1 = l.length := by
      rw [List.length_map, hlcons]
      simp
    rw [hlenrw, ← hmapcons]
  · intro a ha
    rw [hlcons] at ha hsortl
    rcases List.mem_cons.1 ha with rfl | hmem
    · exact le_refl _
    · exact le_of_lt ((List.pairwise_cons.1 hsortl).1 a hmem)

theorem descs_readDocs_eq (db : List (Nat × Nat)) (m : Nat → Bool) (g lb : Nat) (hg : 0 < g)
    (hdb : db.Pairwise (fun a b => a.1 < b.1))
    (hne : db.filter (fun d => m d.2) ≠ [])
    (hlb : ∀ a ∈ db.filter (fun d => m d.2), lb ≤ a.1) :
    readDocs db m (descsSpec lb ((db.filter (fun d => m d.2)).map Prod.fst) g)
      = db.filter (fun d => m d.2) ∧
    ∀ i j, i < j →
      j < (descsSpec lb ((db.filter (fun d => m d.2)).map Prod.fst) g).length →
      ∀ d, d ∈ fetchPart db m
          (descsSpec lb ((db.filter (fun d => m d.2)).map Prod.fst) g) i →
        d ∉ fetchPart db m
          (descsSpec lb ((db.filter (fun d => m d.2)).map Prod.fst) g) j := by
  have hsort : (db.filter (fun d => m d.2)).Pairwise (fun a b => a.1 < b.1) := hdb.filter _
  obtain ⟨hlen, hchunks⟩ := descsSpec_cover Prod.fst g hg (db.filter (fun d => m d.2)).length
    (db.filter (fun d => m d.2)) lb (le_refl _) hne hsort hlb
  have hfetch : ∀ i, i < (descsSpec lb ((db.filter (fun d => m d.2)).map Prod.fst) g).length →
      fetchPart db m (descsSpec lb ((db.filter (fun d => m d.2)).map Prod.fst) g) i =
        ((db.filter (fun d => m d.2)).drop (i * g)).take g := by
    intro i hi
    exact hchunks i hi
  constructor
  · unfold readDocs
    rw [List.flatMap_congr (fun i hi => hfetch i (List.mem_range.1 hi))]
    rw [hlen]
    exact chunks_join g hg _ _ (le_refl _)
  · intro i j hij hj d hdi
    intro hdj
    have hnd : (db.filter (fun d => m d.2)).Nodup :=
      hsort.imp (fun {a b} hab => by
        intro he
        rw [he] at hab
        exact lt_irrefl _ hab)
    rw [hfetch i (lt_trans hij hj)] at hdi
    rw [hfetch j hj] at hdj
    exact chunks_disjoint _ hnd g i j hij d hdi hdj

/-- C2: for every non-empty matched document set, the union of the ranges
of all Partition Descriptors produced by the planner (either strategy),
with the upper bound exclusive for every partition except the last and
inclusive for the last, as applied by the identifier-range filter of
`fetch_mongo`, equals exactly the matched document set: concatenating the
fetched partitions reproduces the matched documents with no gaps, and the
partitions are pairwise disjoint, so every matched document falls in
exactly one partition. -/
theorem claim_C2_partition_cover (db : List (Nat × Nat)) (m : Nat → Bool) (c : Nat)
    (paginate : Bool) (hdb : db.Pairwise (fun a b => a.1 < b.1)) (hc : 0 < c)
    (hne : db.filter (fun d => m d.2) ≠ []) :
    ∃ ds, read_mongo db m c false paginate = .ok ds ∧
      readDocs db m ds = db.filter (fun d => m d.2) ∧
      ∀ i j, i < j → j < ds.length →
        ∀ d, d ∈ fetchPart db m ds i → d ∉ fetchPart db m ds j := by
  cases paginate with
  | true =>
    obtain ⟨lb, hform, hlb⟩ := read_mongo_paginate_form db m c hdb hc hne
    obtain ⟨hcov, hdisj⟩ := descs_readDocs_eq db m c lb hc hdb hne hlb
    exact ⟨_, hform, hcov, hdisj⟩
  | false =>
    obtain ⟨lb, g, hg, hform, hlb⟩ := read_mongo_bucket_form db m c hdb hc hne
    obtain ⟨hcov, hdisj⟩ := descs_readDocs_eq db m g lb hg hdb hne hlb
    exact ⟨_, hform, hcov, hdisj⟩

/-- Witness for C2 at a concrete collection, filter and chunk size. -/
theorem claim_C2_witness :
    ∃ ds, read_mongo [(1, 10), (2, 20), (3, 30)] (fun _ => true) 2 false true = .ok ds ∧
      readDocs [(1, 10), (2, 20), (3, 30)] (fun _ => true) ds =
        [(1, 10), (2, 20), (3, 30)].filter (fun d => (fun _ => true) d.2) ∧
      ∀ i j, i < j → j < ds.length →
        ∀ d, d ∈ fetchPart [(1, 10), (2, 20), (3, 30)] (fun _ => true) ds i →
          d ∉ fetchPart [(1, 10), (2, 20), (3, 30)] (fun _ => true) ds j :=
  claim_C2_partition_cover [(1, 10), (2, 20), (3, 30)] (fun _ => true) 2 true
    (by decide) (by decide) (by decide)

/-- C4: for a non-empty matched set and positive chunk size, the paginated
scan produces exactly the ceiling of the matched count divided by the
chunk size many descriptors, and every resulting partition fetches exactly
`c` documents except possibly the last, which fetches the remainder. -/
theorem claim_C4_paginate_sizes (db : List (Nat × Nat)) (m : Nat → Bool) (c : Nat)
    (hdb : db.Pairwise (fun a b => a.1 < b.1)) (hc : 0 < c)
    (hne : db.filter (fun d => m d.2) ≠ []) :
    ∃ ds, read_mongo db m c false true = .ok ds ∧
      ds.length = ((db.filter (fun d => m d.2)).length + c - 1) / c ∧
      (∀ i, i + 1 < ds.length → (fetchPart db m ds i).length = c) ∧
      (fetchPart db m ds (ds.length - 1)).length =
        (db.filter (fun d => m d.2)).length - (ds.length - 1) * c := by
  obtain ⟨lb, hform, hlb⟩ := read_mongo_paginate_form db m c hdb hc hne
  have hsort : (db.filter (fun d => m d.2)).Pairwise (fun a b => a.1 < b.1) := hdb.filter _
  obtain ⟨hlen, hchunks⟩ := descsSpec_cover Prod.fst c hc (db.filter (fun d => m d.2)).length
    (db.filter (fun d => m d.2)) lb (le_refl _) hne hsort hlb
  set n := (db.filter (fun d => m d.2)).length with hn
  set ds := descsSpec lb ((db.filter (fun d => m d.2)).map Prod.fst) c with hds
  have hdsne : ds ≠ [] := descsSpec_ne_nil _ _ _
  have hdspos : 0 < ds.length := List.length_pos.2 hdsne
  refine ⟨ds, hform, hlen, ?_, ?_⟩
  · intro i hi
    have hchunk := hchunks i (by omega)
    have hfe : fetchPart db m ds i = ((db.filter (fun d => m d.2)).drop (i * c)).take c :=
      hchunk
    rw [hfe]
    simp only [List.length_take, List.length_drop]
    have hbound : (i + 2) * c ≤ n + c - 1 := by
      rw [← Nat.le_div_iff_mul_le hc, ← hlen]
      omega
    have hexp : (i + 2) * c = i * c + 2 * c := by ring
    rw [min_eq_left (by omega)]
  · have hchunk := hchunks (ds.length - 1) (by omega)
    have hfe : fetchPart db m ds (ds.length - 1) =
        ((db.filter (fun d => m d.2)).drop ((ds.length - 1) * c)).take c := hchunk
    rw [hfe]
    simp only [List.length_take, List.length_drop]
    obtain ⟨k, hk⟩ : ∃ k, ds.length = k + 1 := ⟨ds.length - 1, by omega⟩
    rw [hk]
    simp only [Nat.add_sub_cancel]
    have hdiv : n + c - 1 < (k + 2) * c := by
      rw [← Nat.div_lt_iff_lt_mul hc, ← hlen, hk]
      omega
    have hexp : (k + 2) * c = k * c + 2 * c := by ring
    rw [min_eq_right (by omega)]

/-- Witness for C4 at a concrete collection and chunk size. -/
theorem claim_C4_witness :
    ∃ ds, read_mongo [(1, 10), (2, 20), (5, 50)] (fun _ => true) 2 false true = .ok ds ∧
      ds.length = (([(1, 10), (2, 20), (5, 50)].filter
        (fun d => (fun _ => true) d.2)).length + 2 - 1) / 2 ∧
      (∀ i, i + 1 < ds.length →
        (fetchPart [(1, 10), (2, 20), (5, 50)] (fun _ => true) ds i).length = 2) ∧
      (fetchPart [(1, 10), (2, 20), (5, 50)] (fun _ => true) ds (ds.length - 1)).length =
        ([(1, 10), (2, 20), (5, 50)].filter (fun d => (fun _ => true) d.2)).length -
          (ds.length - 1) * 2 :=
  claim_C4_paginate_sizes [(1, 10), (2, 20), (5, 50)] (fun _ => true) 2
    (by decide) (by decide) (by decide)

/-- C3 (counterexample): for an empty matched set with the exact
(aggregation) count, `read_mongo` raises `StopIteration` out of
`next(coll.aggregate([{"$match": ...}, {"$count": "count"}]))` instead of
returning a zero-partition collection, under both partitioning
strategies. -/
theorem claim_C3_counterexample :
    read_mongo [] (fun _ => true) 5 false false = .error .stopIteration ∧
    read_mongo [] (fun _ => true) 5 false true = .error .stopIteration := by
  constructor <;> rfl

/-- C3 (amended): an empty matched set yields zero descriptors and a
zero-partition collection without an error only on the
approximate-count + auto-bucket path over a non-empty collection; there
`npartitions` is positive, the bucket stage returns no buckets, and the
Bag has zero partitions. -/
theorem claim_C3_amended (db : List (Nat × Nat)) (m : Nat → Bool) (c : Nat)
    (hdbne : db ≠ []) (hm : db.filter (fun d => m d.2) = []) (hc : 0 < c) :
    read_mongo db m c true false = .ok [] ∧ readDocs db m [] = [] := by
  have hdblen : 0 < db.length := List.length_pos.2 hdbne
  constructor
  · unfold read_mongo
    simp only [if_true, ceilDivPy_ok _ _ hc, Bool.false_eq_true, if_false]
    have hids : matchedIds db m = [] := by
      unfold matchedIds sortIds
      rw [hm]
      rfl
    rw [hids]
    unfold bucket_auto
    rw [if_neg]
    intro h0
    have : 0 < (db.length + c - 1) / c := Nat.div_pos (by omega) hc
    omega
  · rfl

/-- Witness for the amended C3. -/
theorem claim_C3_witness :
    read_mongo [(7, 3)] (fun p => p == 99) 4 true false = .ok [] ∧
      readDocs [(7, 3)] (fun p => p == 99) [] = [] :=
  claim_C3_amended [(7, 3)] (fun p => p == 99) 4 (by decide) (by decide) (by decide)

/-- C10: `read_mongo` with `chunksize = 0` reaches the unguarded
`int(ceil(nrows / chunksize))` and raises `ZeroDivisionError` instead of
returning a collection, on every strategy combination (for the exact count
the matched set must be non-empty, otherwise the count itself raises
first). -/
theorem claim_C10_chunksize_zero (db : List (Nat × Nat)) (m : Nat → Bool) (pag : Bool)
    (hne : db.filter (fun d => m d.2) ≠ []) :
    read_mongo db m 0 false pag = .error .zeroDivisionError ∧
    read_mongo db m 0 true pag = .error .zeroDivisionError := by
  have hdiv : ∀ nrows : Nat, ceilDivPy nrows 0 = .error .zeroDivisionError := fun _ => rfl
  constructor
  · unfold read_mongo
    simp only [countExact_ok _ _ hne, Bool.false_eq_true, if_false, hdiv]
  · unfold read_mongo
    simp only [if_true, hdiv]

/-- Witness for C10. -/
theorem claim_C10_witness :
    read_mongo [(1, 10)] (fun _ => true) 0 false true = .error .zeroDivisionError ∧
    read_mongo [(1, 10)] (fun _ => true) 0 true true = .error .zeroDivisionError :=
  claim_C10_chunksize_zero [(1, 10)] (fun _ => true) true (by decide)

theorem take_set_of_le_idx {α : Type} (l : List α) (i : Nat) (x : α) (n : Nat) (h : n ≤ i) :
    (l.set i x).take n = l.take n := by
  apply List.ext_getElem
  · simp
  · intro j hj1 hj2
    rw [List.getElem_take, List.getElem_take, List.getElem_set_ne]
    simp at hj1
    omega

theorem rows_append (o : Nat) : ∀ (xs ys : List Nat),
    rows o (xs ++ ys) = rows o xs ++ rows (o + xs.length) ys := by
  intro xs
  induction xs generalizing o with
  | nil => intro ys; simp [rows]
  | cons x xs ih =>
    intro ys
    show (o, x) :: rows (o + 1) (xs ++ ys) =
      ((o, x) :: rows (o + 1) xs) ++ rows (o + (x :: xs).length) ys
    rw [ih (o + 1)]
    simp only [List.cons_append, List.length_cons]
    have h1 : o + 1 + xs.length = o + (xs.length + 1) := by omega
    rw [h1]

theorem rows_map_snd (o : Nat) : ∀ (ps : List Nat), (rows o ps).map Prod.snd = ps := by
  intro ps
  induction ps generalizing o with
  | nil => rfl
  | cons p ps ih => simp [rows, ih]

theorem rows_length (o : Nat) : ∀ (ps : List Nat), (rows o ps).length = ps.length := by
  intro ps
  induction ps generalizing o with
  | nil => rfl
  | cons p ps ih => simp [rows, ih]

theorem rows_fst_ge (o : Nat) : ∀ (ps : List Nat) (x : Nat × Nat), x ∈ rows o ps → o ≤ x.1 := by
  intro ps
  induction ps generalizing o with
  | nil => intro x hx; exact absurd hx (List.not_mem_nil x)
  | cons p ps ih =>
    intro x hx
    rcases List.mem_cons.1 hx with rfl | hmem
    · exact le_refl _
    · exact le_trans (by omega) (ih (o + 1) x hmem)

theorem rows_pairwise (o : Nat) : ∀ (ps : List Nat),
    (rows o ps).Pairwise (fun a b => a.1 < b.1) := by
  intro ps
  induction ps generalizing o with
  | nil => exact List.Pairwise.nil
  | cons p ps ih =>
    rw [rows, List.pairwise_cons]
    exact ⟨fun b hb => lt_of_lt_of_le (by omega) (rows_fst_ge (o + 1) ps b hb), ih (o + 1)⟩

theorem getD_set_payload (l : List Doc) (b : Nat) (v : Doc) (a : Nat)
    (hv : v.payload = (l.getD b ⟨0, none⟩).payload) :
    ((l.set b v).getD a ⟨0, none⟩).payload = (l.getD a ⟨0, none⟩).payload := by
  by_cases ha : a < l.length
  · have ha2 : a < (l.set b v).length := by simpa using ha
    rw [getD_eq_getElem_of_lt _ _ _ ha2, getD_eq_getElem_of_lt _ _ _ ha]
    by_cases hab : a = b
    · subst hab
      rw [List.getElem_set_self]
      rw [hv, getD_eq_getElem_of_lt _ _ _ ha]
    · rw [List.getElem_set_ne (by omega)]
  · have ha2 : ¬ a < (l.set b v).length := by simpa using ha
    rw [List.getD_eq_getElem?_getD, List.getD_eq_getElem?_getD,
      List.getElem?_eq_none (by omega), List.getElem?_eq_none (by omega)]

theorem allocCopies_exists_ext : ∀ (vs : List Nat) (st : WState),
    ∃ ext : List Doc, ext.length = vs.length ∧
      allocCopies vs st = (List.range' st.heap.length vs.length,
        ⟨st.heap ++ ext, st.db, st.nextOid, st.insertCalls⟩) := by
  intro vs
  induction vs with
  | nil =>
    intro st
    exact ⟨[], rfl, by simp [allocCopies]⟩
  | cons a as ih =>
    intro st
    obtain ⟨ext, hlen, hrec⟩ := ih { st with heap := st.heap ++ [st.heap.getD a ⟨0, none⟩] }
    refine ⟨st.heap.getD a ⟨0, none⟩ :: ext, by simp [hlen], ?_⟩
    simp only [List.length_append, List.length_singleton] at hrec
    simp only [allocCopies, allocCopy]
    rw [hrec]
    simp only [List.length_cons]
    rw [List.range'_succ]
    simp [List.append_assoc]

theorem insertDocs_spec : ∀ (addrs : List Nat) (st : WState),
    (insertDocs addrs st).db =
      st.db ++ rows st.nextOid (addrs.map (fun a => (st.heap.getD a ⟨0, none⟩).payload)) ∧
    (insertDocs addrs st).nextOid = st.nextOid + addrs.length ∧
    (insertDocs addrs st).insertCalls = st.insertCalls ∧
    (insertDocs addrs st).heap.length = st.heap.length ∧
    ∀ k, (∀ a ∈ addrs, k ≤ a) → (insertDocs addrs st).heap.take k = st.heap.take k := by
  intro addrs
  induction addrs with
  | nil =>
    intro st
    refine ⟨by simp [insertDocs, rows], by simp [insertDocs], rfl, rfl, fun k _ => rfl⟩
  | cons a as ih =>
    intro st
    simp only [insertDocs]
    obtain ⟨hdb, hoid, hcalls, hheaplen, htake⟩ :=
      ih { st with
        heap := st.heap.set a { st.heap.getD a ⟨0, none⟩ with oid := some st.nextOid },
        db := st.db ++ [(st.nextOid, (st.heap.getD a ⟨0, none⟩).payload)],
        nextOid := st.nextOid + 1 }
    refine ⟨?_, ?_, ?_, ?_, ?_⟩
    · rw [hdb]
      simp only [List.map_cons, rows, List.append_assoc, List.singleton_append]
      congr 1
      congr 1
      congr 1
      apply List.map_congr_left
      intro b _
      exact getD_set_payload st.heap a _ b rfl
    · rw [hoid]
      simp
      omega
    · rw [hcalls]
    · rw [hheaplen]
      simp
    · intro k hk
      rw [htake k (fun b hb => hk b (List.mem_cons_of_mem a hb))]
      exact take_set_of_le_idx _ _ _ _ (hk a (List.mem_cons_self a as))

theorem getD_append_left {α : Type} (l1 l2 : List α) (a : Nat) (d : α) (h : a < l1.length) :
    (l1 ++ l2).getD a d = l1.getD a d := by
  rw [getD_eq_getElem_of_lt _ _ _ (by simp; omega), getD_eq_getElem_of_lt _ _ _ h,
    List.getElem_append_left]

theorem getD_take {α : Type} (l : List α) (k a : Nat) (d : α) (ha : a < k) :
    (l.take k).getD a d = l.getD a d := by
  by_cases h : a < l.length
  · rw [getD_eq_getElem_of_lt _ _ _ (by simp; omega), getD_eq_getElem_of_lt _ _ _ h,
      List.getElem_take]
  · rw [List.getD_eq_getElem?_getD, List.getD_eq_getElem?_getD, List.getElem?_eq_none,
      List.getElem?_eq_none]
    · omega
    · simp
      omega

theorem allocCopies_ext_valid : ∀ (vs : List Nat) (st : WState),
    (∀ a ∈ vs, a < st.heap.length) →
    allocCopies vs st = (List.range' st.heap.length vs.length,
      ⟨st.heap ++ vs.map (fun a => st.heap.getD a ⟨0, none⟩),
        st.db, st.nextOid, st.insertCalls⟩) := by
  intro vs
  induction vs with
  | nil =>
    intro st _
    simp [allocCopies]
  | cons a as ih =>
    intro st hval
    have hrec := ih { st with heap := st.heap ++ [st.heap.getD a ⟨0, none⟩] }
      (fun b hb => by simp; have := hval b (List.mem_cons_of_mem a hb); omega)
    simp only [List.length_append, List.length_singleton] at hrec
    simp only [allocCopies, allocCopy]
    rw [hrec]
    simp only [List.length_cons]
    rw [List.range'_succ]
    have hmap : as.map (fun b => (st.heap ++ [st.heap.getD a ⟨0, none⟩]).getD b ⟨0, none⟩) =
        as.map (fun b => st.heap.getD b ⟨0, none⟩) := by
      apply List.map_congr_left
      intro b hb
      exact getD_append_left _ _ _ _ (hval b (List.mem_cons_of_mem a hb))
    rw [hmap]
    simp [List.append_assoc]

theorem map_getD_append : ∀ (ext h1 : List Doc),
    (List.range' h1.length ext.length).map (fun a => (h1 ++ ext).getD a ⟨0, none⟩) = ext := by
  intro ext
  induction ext with
  | nil => intro h1; simp
  | cons d rest ih =>
    intro h1
    simp only [List.length_cons]
    rw [List.range'_succ, List.map_cons]
    have hhead : (h1 ++ d :: rest).getD h1.length ⟨0, none⟩ = d := by
      rw [getD_eq_getElem_of_lt _ _ _ (by simp)]
      rw [List.getElem_append_right (le_refl h1.length)]
      simp
    rw [hhead]
    have hassoc : h1 ++ d :: rest = (h1 ++ [d]) ++ rest := by simp
    rw [hassoc, show h1.length + 1 = (h1 ++ [d]).length from by simp, ih (h1 ++ [d])]

theorem write_mongo_spec (values : List Nat) (st : WState)
    (hval : ∀ a ∈ values, a < st.heap.length) (hvne : values ≠ []) :
    (write_mongo values st).2 = none ∧
    (write_mongo values st).1.db = st.db ++
      rows st.nextOid (values.map (fun a => (st.heap.getD a ⟨0, none⟩).payload)) ∧
    (write_mongo values st).1.nextOid = st.nextOid + values.length ∧
    (write_mongo values st).1.insertCalls = st.insertCalls + 1 ∧
    (write_mongo values st).1.heap.take st.heap.length = st.heap ∧
    st.heap.length ≤ (write_mongo values st).1.heap.length := by
  have halloc := allocCopies_ext_valid values st hval
  unfold write_mongo insert_many
  rw [halloc]
  have hvlen : values.length ≠ 0 := by
    intro h0
    exact hvne (List.length_eq_zero.1 h0)
  have hcopne : (List.range' st.heap.length values.length).isEmpty = false := by
    obtain ⟨k, hk⟩ : ∃ k, values.length = k + 1 := ⟨values.length - 1, by omega⟩
    rw [hk, List.range'_succ]
    rfl
  simp only [hcopne, Bool.false_eq_true, if_false]
  obtain ⟨hdb, hoid, hcalls, hheaplen, htake⟩ :=
    insertDocs_spec (List.range' st.heap.length values.length)
      ⟨st.heap ++ values.map (fun a => st.heap.getD a ⟨0, none⟩),
        st.db, st.nextOid, st.insertCalls + 1⟩
  have hrange_ge : ∀ a ∈ List.range' st.heap.length values.length, st.heap.length ≤ a := by
    intro a ha
    exact (List.mem_range'_1.1 ha).1
  have hmapeq : (List.range' st.heap.length values.length).map
      (fun a => ((st.heap ++ values.map (fun b => st.heap.getD b ⟨0, none⟩)).getD a
        ⟨0, none⟩).payload) =
      values.map (fun a => (st.heap.getD a ⟨0, none⟩).payload) := by
    have hlen2 : values.length = (values.map (fun b => st.heap.getD b ⟨0, none⟩)).length := by
      simp
    rw [show ((fun a => ((st.heap ++ values.map (fun b => st.heap.getD b ⟨0, none⟩)).getD a
        ⟨0, none⟩).payload)) = (Doc.payload ∘ (fun a =>
          (st.heap ++ values.map (fun b => st.heap.getD b ⟨0, none⟩)).getD a ⟨0, none⟩))
      from rfl]
    rw [← List.map_map, hlen2, map_getD_append, List.map_map]
    rfl
  refine ⟨by trivial, ?_, ?_, ?_, ?_, ?_⟩
  · rw [hdb]
    rw [hmapeq]
  · rw [hoid]
    simp
  · rw [hcalls]
  · rw [htake st.heap.length hrange_ge]
    exact List.take_left st.heap _
  · rw [hheaplen]
    simp

theorem write_mongo_frame (values : List Nat) (st : WState) :
    (write_mongo values st).1.heap.take st.heap.length = st.heap ∧
    st.heap.length ≤ (write_mongo values st).1.heap.length ∧
    (write_mongo values st).1.insertCalls = st.insertCalls + 1 := by
  obtain ⟨ext, hextlen, halloc⟩ := allocCopies_exists_ext values st
  unfold write_mongo insert_many
  rw [halloc]
  by_cases hvne : values.length = 0
  · simp only [hvne]
    have : List.range' st.heap.length 0 = [] := rfl
    rw [this]
    simp only [List.isEmpty_nil, if_true]
    refine ⟨?_, ?_, by trivial⟩
    · have hext0 : ext = [] := List.length_eq_zero.1 (by omega)
      subst hext0
      simp
    · simp
  · have hcopne : (List.range' st.heap.length values.length).isEmpty = false := by
      obtain ⟨k, hk⟩ : ∃ k, values.length = k + 1 := ⟨values.length - 1, by omega⟩
      rw [hk, List.range'_succ]
      rfl
    simp only [hcopne, Bool.false_eq_true, if_false]
    obtain ⟨hdb, hoid, hcalls, hheaplen, htake⟩ :=
      insertDocs_spec (List.range' st.heap.length values.length)
        ⟨st.heap ++ ext, st.db, st.nextOid, st.insertCalls + 1⟩
    have hrange_ge : ∀ a ∈ List.range' st.heap.length values.length, st.heap.length ≤ a := by
      intro a ha
      exact (List.mem_range'_1.1 ha).1
    refine ⟨?_, ?_, ?_⟩
    · rw [htake st.heap.length hrange_ge]
      exact List.take_left st.heap _
    · rw [hheaplen]
      simp
    · rw [hcalls]

theorem to_mongo_spec : ∀ (parts : List (List Nat)) (st : WState),
    (∀ p ∈ parts, p ≠ []) → (∀ a ∈ parts.flatten, a < st.heap.length) →
    (to_mongo parts st).2 = none ∧
    (to_mongo parts st).1.db = st.db ++
      rows st.nextOid (parts.flatten.map (fun a => (st.heap.getD a ⟨0, none⟩).payload)) := by
  intro parts
  induction parts with
  | nil =>
    intro st _ _
    exact ⟨rfl, by simp [to_mongo, rows]⟩
  | cons p ps ih =>
    intro st hne hval
    have hvalp : ∀ a ∈ p, a < st.heap.length := fun a ha =>
      hval a (by rw [List.flatten_cons]; exact List.mem_append_left _ ha)
    have hvalps : ∀ a ∈ ps.flatten, a < st.heap.length := fun a ha =>
      hval a (by rw [List.flatten_cons]; exact List.mem_append_right _ ha)
    have hpne : p ≠ [] := hne p (List.mem_cons_self p ps)
    obtain ⟨herr, hdb, hoid, hcalls, htake, hlen⟩ := write_mongo_spec p st hvalp hpne
    have hto : to_mongo (p :: ps) st = to_mongo ps (write_mongo p st).1 := by
      rcases hw : write_mongo p st with ⟨st1, e⟩
      rw [hw] at herr
      simp only at herr
      subst herr
      simp only [to_mongo, hw]
    rw [hto]
    obtain ⟨iherr, ihdb⟩ := ih (write_mongo p st).1
      (fun q hq => hne q (List.mem_cons_of_mem p hq))
      (fun a ha => lt_of_lt_of_le (hvalps a ha) hlen)
    refine ⟨iherr, ?_⟩
    rw [ihdb, hdb, hoid]
    have hmap2 : ps.flatten.map
        (fun a => ((write_mongo p st).1.heap.getD a ⟨0, none⟩).payload) =
        ps.flatten.map (fun a => (st.heap.getD a ⟨0, none⟩).payload) := by
      apply List.map_congr_left
      intro a ha
      have ha2 : a < st.heap.length := hvalps a ha
      have hgd : (write_mongo p st).1.heap.getD a ⟨0, none⟩ = st.heap.getD a ⟨0, none⟩ := by
        rw [← htake, getD_take _ _ _ _ ha2]
      rw [hgd]
    rw [hmap2, List.flatten_cons, List.map_append, rows_append, List.length_map,
      List.append_assoc]

theorem payload_init (docs : List Nat) (a : Nat) :
    ((docs.map (fun p => (⟨p, none⟩ : Doc))).getD a ⟨0, none⟩).payload = docs.getD a 0 := by
  by_cases h : a < docs.length
  · rw [getD_eq_getElem_of_lt _ _ _ (by simpa using h), getD_eq_getElem_of_lt _ _ _ h,
      List.getElem_map]
  · have h1 : (docs.map (fun p => (⟨p, none⟩ : Doc)))[a]? = none :=
      List.getElem?_eq_none (by simp; omega)
    have h2 : docs[a]? = none := List.getElem?_eq_none (by omega)
    rw [List.getD_eq_getElem?_getD, List.getD_eq_getElem?_getD, h1, h2]
    rfl

theorem range_map_getD (l : List Nat) :
    (List.range l.length).map (fun a => l.getD a 0) = l := by
  apply List.ext_getElem
  · simp
  · intro i h1 h2
    have hi : i < l.length := by simpa using h2
    rw [List.getElem_map, List.getElem_range, getD_eq_getElem_of_lt _ _ _ hi]

/-- C6: the write fan-out never mutates caller-owned documents: every
object that existed before the call is unchanged afterwards (only the
freshly allocated shallow copies receive the generated identifier), so
after a write the caller's documents still carry their original `_id`
state. -/
theorem claim_C6_no_mutation (values : List Nat) (st : WState) :
    (write_mongo values st).1.heap.take st.heap.length = st.heap ∧
    ∀ a ∈ values, a < st.heap.length →
      (write_mongo values st).1.heap.getD a ⟨0, none⟩ = st.heap.getD a ⟨0, none⟩ ∧
      ((write_mongo values st).1.heap.getD a ⟨0, none⟩).oid =
        (st.heap.getD a ⟨0, none⟩).oid := by
  obtain ⟨htake, hlen, _⟩ := write_mongo_frame values st
  refine ⟨htake, ?_⟩
  intro a _ ha
  have hgd : (write_mongo values st).1.heap.getD a ⟨0, none⟩ = st.heap.getD a ⟨0, none⟩ := by
    rw [← htake, getD_take _ _ _ _ ha]
  exact ⟨hgd, by rw [hgd]⟩

/-- Witness for C6 at a concrete heap and value list. -/
theorem claim_C6_witness :
    (write_mongo [0, 1] (initWState [5, 7])).1.heap.take
        (initWState [5, 7]).heap.length = (initWState [5, 7]).heap ∧
    ∀ a ∈ [0, 1], a < (initWState [5, 7]).heap.length →
      (write_mongo [0, 1] (initWState [5, 7])).1.heap.getD a ⟨0, none⟩ =
        (initWState [5, 7]).heap.getD a ⟨0, none⟩ ∧
      ((write_mongo [0, 1] (initWState [5, 7])).1.heap.getD a ⟨0, none⟩).oid =
        ((initWState [5, 7]).heap.getD a ⟨0, none⟩).oid :=
  claim_C6_no_mutation [0, 1] (initWState [5, 7])

/-- C7 (counterexample): writing an empty partition still issues exactly
one bulk-insert call against the driver (which rejects the empty batch
with `TypeError`); the claim that zero documents produce no insert calls
is false. -/
theorem claim_C7_counterexample :
    (write_mongo [] (initWState [5])).1.insertCalls = 1 ∧
    (write_mongo [] (initWState [5])).2 = some .typeError := by
  constructor <;> rfl

/-- C7 (amended): `write_mongo` over an empty partition performs exactly
one `insert_many` call, which the driver rejects with `TypeError`
(documents must be a non-empty list) before touching the collection; the
state is otherwise unchanged. -/
theorem claim_C7_amended (st : WState) :
    write_mongo [] st = ({ st with insertCalls := st.insertCalls + 1 },
      some .typeError) := rfl

/-- C5 (counterexample): the round trip fails for an empty document list:
writing an empty Bag leaves the collection empty, and reading it back with
the exact count raises `StopIteration` instead of returning the empty
document set. -/
theorem claim_C5_counterexample :
    (to_mongo [] (initWState [])).2 = none ∧
    read_mongo (to_mongo [] (initWState [])).1.db (fun _ => true) 3 false true =
      .error .stopIteration := by
  constructor <;> rfl

/-- C5 (amended): for every non-empty document list, positive chunk sizes
on both sides and any partitioning of the documents into non-empty write
partitions, writing via `to_mongo` and reading back via `read_mongo` with
an empty match filter yields exactly the written multiset of documents
(ignoring the generated identifier field): no duplicates and no missing
documents. -/
theorem claim_C5_roundtrip (docs : List Nat) (parts : List (List Nat)) (c : Nat)
    (hd : docs ≠ []) (hc : 0 < c)
    (hjoin : parts.flatten.Perm (List.range docs.length))
    (hne : ∀ p ∈ parts, p ≠ []) :
    (to_mongo parts (initWState docs)).2 = none ∧
    ∃ ds, read_mongo (to_mongo parts (initWState docs)).1.db (fun _ => true) c false true
        = .ok ds ∧
      ((readDocs (to_mongo parts (initWState docs)).1.db (fun _ => true) ds).map
        Prod.snd).Perm docs := by
  have hval : ∀ a ∈ parts.flatten, a < (initWState docs).heap.length := by
    intro a ha
    have h1 : a ∈ List.range docs.length := hjoin.mem_iff.1 ha
    have h2 := List.mem_range.1 h1
    simpa [initWState] using h2
  obtain ⟨herr, hdb⟩ := to_mongo_spec parts (initWState docs) hne hval
  refine ⟨herr, ?_⟩
  have hdb2 : (to_mongo parts (initWState docs)).1.db =
      rows 0 (parts.flatten.map (fun a => docs.getD a 0)) := by
    rw [hdb]
    show [] ++ rows 0 (parts.flatten.map
        (fun a => ((docs.map (fun p => (⟨p, none⟩ : Doc))).getD a ⟨0, none⟩).payload)) = _
    rw [List.nil_append]
    congr 1
    apply List.map_congr_left
    intro a _
    exact payload_init docs a
  set pj := parts.flatten.map (fun a => docs.getD a 0) with hpj
  have hsorted : (rows 0 pj).Pairwise (fun a b => a.1 < b.1) := rows_pairwise 0 pj
  have hfilter : (rows 0 pj).filter (fun d => (fun _ : Nat => true) d.2) = rows 0 pj := by
    apply List.filter_eq_self.2
    intro a _
    rfl
  have hdocslen : 0 < docs.length := List.length_pos.2 hd
  have hpjlen : pj.length = docs.length := by
    rw [hpj, List.length_map, hjoin.length_eq, List.length_range]
  have hrowsne : rows 0 pj ≠ [] := by
    intro h0
    have hl := congrArg List.length h0
    rw [rows_length] at hl
    simp only [List.length_nil] at hl
    omega
  have hfne : (rows 0 pj).filter (fun d => (fun _ : Nat => true) d.2) ≠ [] := by
    rw [hfilter]
    exact hrowsne
  obtain ⟨lb, hform, hlb⟩ :=
    read_mongo_paginate_form (rows 0 pj) (fun _ => true) c hsorted hc hfne
  obtain ⟨hcov, _⟩ := descs_readDocs_eq (rows 0 pj) (fun _ => true) c lb hc hsorted hfne hlb
  have hperm : pj.Perm docs := by
    rw [hpj]
    have h1 := hjoin.map (fun a => docs.getD a 0)
    rw [range_map_getD] at h1
    exact h1
  refine ⟨descsSpec lb
    (((rows 0 pj).filter (fun d => (fun _ : Nat => true) d.2)).map Prod.fst) c, ?_, ?_⟩
  · rw [hdb2]
    exact hform
  · rw [hdb2, hcov, hfilter, rows_map_snd]
    exact hperm

/-- Witness for the amended C5 at a concrete document list, write
partitioning and read chunk size. -/
theorem claim_C5_witness :
    (to_mongo [[0], [1]] (initWState [5, 7])).2 = none ∧
    ∃ ds, read_mongo (to_mongo [[0], [1]] (initWState [5, 7])).1.db
        (fun _ => true) 1 false true = .ok ds ∧
      ((readDocs (to_mongo [[0], [1]] (initWState [5, 7])).1.db (fun _ => true) ds).map
        Prod.snd).Perm [5, 7] :=
  claim_C5_roundtrip [5, 7] [[0], [1]] 1 (by decide) (by decide) (by decide) (by decide)

theorem cache_inner_closed (kw : List (PyVal × PyVal)) (st : CCache) :
    (cache_inner kw st).2.closed = st.closed := by
  unfold cache_inner
  split <;> rfl

theorem runClients_closed (kws : List (List (PyVal × PyVal))) :
    (runClients kws).closed = [] := by
  have hfold : ∀ (ks : List (List (PyVal × PyVal))) (st : CCache),
      (ks.foldl (fun st kw => (get_client kw st).2) st).closed = st.closed := by
    intro ks
    induction ks with
    | nil => intro st; rfl
    | cons k ks ih =>
      intro st
      rw [List.foldl_cons, ih]
      exact cache_inner_closed k st
  exact hfold kws emptyCache

/-- C9 (code bug): no client handle is ever closed.  The `atexit` callback
is `weakref.WeakMethod(client.close)`; invoking a `WeakMethod` merely
dereferences it and returns the bound method without calling it, and an
`lru_cache` eviction discards the entry without any close call — so after
any sequence of `_get_client` calls followed by process exit the set of
closed clients is still empty, although every call may have opened a
handle. -/
theorem claim_C9_never_closed (kws : List (List (PyVal × PyVal))) :
    (runAtexit (runClients kws)).closed = [] ∧
    (runClients kws).closed = [] := by
  have h1 : (runClients kws).closed = [] := runClients_closed kws
  constructor
  · unfold runAtexit
    have hfold : ∀ (cbs : List ExitCb) (closed : List Nat),
        cbs.foldl runExitCb closed = closed := by
      intro cbs
      induction cbs with
      | nil => intro closed; rfl
      | cons cb cbs ih =>
        intro closed
        rw [List.foldl_cons]
        cases cb with
        | weakMethodClose h => exact ih closed
    rw [hfold, h1]
  · exact h1

theorem wfList_mem : ∀ (xs : List PyVal), wfList xs = true → ∀ x ∈ xs, wfB x = true := by
  intro xs
  induction xs with
  | nil => intro _ x hx; exact absurd hx (List.not_mem_nil x)
  | cons y ys ih =>
    intro hwf x hx
    simp only [wfList, Bool.and_eq_true] at hwf
    rcases List.mem_cons.1 hx with rfl | hmem
    · exact hwf.1
    · exact ih hwf.2 x hmem

theorem wfPairs_mem : ∀ (kvs : List (PyVal × PyVal)), wfPairs kvs = true →
    ∀ kv ∈ kvs, wfB kv.1 = true ∧ wfB kv.2 = true := by
  intro kvs
  induction kvs with
  | nil => intro _ kv hkv; exact absurd hkv (List.not_mem_nil kv)
  | cons y ys ih =>
    intro hwf kv hkv
    rcases y with ⟨k, v⟩
    simp only [wfPairs, Bool.and_eq_true] at hwf
    obtain ⟨⟨h1, h2⟩, h3⟩ := hwf
    rcases List.mem_cons.1 hkv with rfl | hmem
    · exact ⟨h1, h2⟩
    · exact ih h3 kv hmem

theorem pyEqList_refl_of : ∀ (xs : List PyVal), (∀ x ∈ xs, pyEq x x = true) →
    pyEqList xs xs = true := by
  intro xs
  induction xs with
  | nil => intro _; simp [pyEqList]
  | cons x xs ih =>
    intro h
    simp only [pyEqList, Bool.and_eq_true]
    exact ⟨h x (List.mem_cons_self x xs), ih (fun y hy => h y (List.mem_cons_of_mem x hy))⟩

theorem pyFindEq_of_pre : ∀ (pre : List (PyVal × PyVal)) (k v : PyVal)
    (rest : List (PyVal × PyVal)),
    (∀ kv ∈ pre, pyEq kv.1 k = false) → pyEq k k = true → pyEq v v = true →
    pyFindEq k v (pre ++ (k, v) :: rest) = true := by
  intro pre
  induction pre with
  | nil =>
    intro k v rest _ hkk hvv
    simp only [List.nil_append, pyFindEq, hkk, if_true]
    exact hvv
  | cons kv1 pre ih =>
    intro k v rest hpre hkk hvv
    rcases kv1 with ⟨k1, v1⟩
    have h1 : pyEq k1 k = false := hpre (k1, v1) (List.mem_cons_self _ _)
    simp only [List.cons_append, pyFindEq, h1, Bool.false_eq_true, if_false]
    exact ih k v rest (fun kv hkv => hpre kv (List.mem_cons_of_mem _ hkv)) hkk hvv

theorem pySubDict_of_all : ∀ (kvs full : List (PyVal × PyVal)),
    (∀ kv ∈ kvs, pyFindEq kv.1 kv.2 full = true) → pySubDict kvs full = true := by
  intro kvs
  induction kvs with
  | nil => intro full _; simp [pySubDict]
  | cons kv kvs ih =>
    intro full h
    rcases kv with ⟨k, v⟩
    simp only [pySubDict, Bool.and_eq_true]
    exact ⟨h (k, v) (List.mem_cons_self _ _),
      ih full (fun kv2 hkv2 => h kv2 (List.mem_cons_of_mem _ hkv2))⟩

theorem findEq_refl_of_distinct : ∀ (kvs : List (PyVal × PyVal)),
    distinctKeysB kvs = true →
    (∀ kv ∈ kvs, pyEq kv.1 kv.1 = true ∧ pyEq kv.2 kv.2 = true) →
    ∀ kv ∈ kvs, pyFindEq kv.1 kv.2 kvs = true := by
  intro kvs
  induction kvs with
  | nil => intro _ _ kv hkv; exact absurd hkv (List.not_mem_nil kv)
  | cons kv0 rest ih =>
    intro hdk hrefl kv hkv
    rcases kv0 with ⟨k0, v0⟩
    simp only [distinctKeysB, Bool.and_eq_true, List.all_eq_true] at hdk
    rcases List.mem_cons.1 hkv with rfl | hmem
    · have h0 := hrefl (k0, v0) (List.mem_cons_self _ _)
      simp only [pyFindEq, h0.1, if_true]
      exact h0.2
    · have hne : pyEq k0 kv.1 = false := by
        have := hdk.1 kv hmem
        simp only [Bool.and_eq_true, Bool.not_eq_true'] at this
        exact this.1
      simp only [pyFindEq]
      rw [if_neg (by rw [hne]; exact Bool.false_ne_true)]
      exact ih hdk.2 (fun kv2 hkv2 => hrefl kv2 (List.mem_cons_of_mem _ hkv2)) kv hmem

theorem pyEq_refl : ∀ (n : Nat) (v : PyVal), sizeOf v ≤ n → wfB v = true →
    pyEq v v = true := by
  intro n
  induction n with
  | zero =>
    intro v hsize _
    exact absurd hsize (by cases v <;> simp)
  | succ n ih =>
    intro v hsize hwf
    cases v with
    | pbool b => simp [pyEq]
    | pint m => simp [pyEq]
    | pstr s => simp [pyEq]
    | plist xs =>
      simp only [pyEq]
      apply pyEqList_refl_of
      intro x hx
      refine ih x ?_ (wfList_mem xs (by simpa [wfB] using hwf) x hx)
      have h1 := List.sizeOf_lt_of_mem hx
      have h2 : sizeOf (PyVal.plist xs) = 1 + sizeOf xs := by simp
      omega
    | ptuple xs =>
      simp only [pyEq]
      apply pyEqList_refl_of
      intro x hx
      refine ih x ?_ (wfList_mem xs (by simpa [wfB] using hwf) x hx)
      have h1 := List.sizeOf_lt_of_mem hx
      have h2 : sizeOf (PyVal.ptuple xs) = 1 + sizeOf xs := by simp
      omega
    | pdict kvs =>
      simp only [wfB, Bool.and_eq_true] at hwf
      simp only [pyEq, Bool.and_eq_true]
      refine ⟨by simp, ?_⟩
      apply pySubDict_of_all
      apply findEq_refl_of_distinct kvs hwf.1
      intro kv hkv
      have hsz := List.sizeOf_lt_of_mem hkv
      have hszkv : sizeOf kv = 1 + sizeOf kv.1 + sizeOf kv.2 := by
        rcases kv with ⟨k, v⟩
        simp
        try omega
      have hd : sizeOf (PyVal.pdict kvs) = 1 + sizeOf kvs := by simp
      have hkwf := wfPairs_mem kvs hwf.2 kv hkv
      exact ⟨ih kv.1 (by omega) hkwf.1, ih kv.2 (by omega) hkwf.2⟩

theorem distinctKeys_pairwise : ∀ (kvs : List (PyVal × PyVal)),
    distinctKeysB kvs = true ↔
      kvs.Pairwise (fun a b => pyEq a.1 b.1 = false ∧ pyEq b.1 a.1 = false) := by
  intro kvs
  induction kvs with
  | nil => simp [distinctKeysB]
  | cons kv0 rest ih =>
    rcases kv0 with ⟨k0, v0⟩
    simp only [distinctKeysB, Bool.and_eq_true, List.all_eq_true, List.pairwise_cons, ih]
    constructor
    · rintro ⟨hall, hrest⟩
      refine ⟨?_, hrest⟩
      intro b hb
      have := hall b hb
      simp only [Bool.and_eq_true, Bool.not_eq_true'] at this
      exact this
    · rintro ⟨hall, hrest⟩
      refine ⟨?_, hrest⟩
      intro b hb
      have := hall b hb
      simp only [Bool.and_eq_true, Bool.not_eq_true']
      exact this

theorem tuplingPairs_eq_map : ∀ (kvs : List (PyVal × PyVal)),
    tuplingPairs kvs =
      kvs.map (fun kv => PyVal.ptuple [recursive_tupling kv.1, recursive_tupling kv.2]) := by
  intro kvs
  induction kvs with
  | nil => rfl
  | cons kv rest ih =>
    rcases kv with ⟨k, v⟩
    simp only [tuplingPairs, List.map_cons, ih]

theorem pyHashList_eq_filterMap : ∀ (l : List PyVal),
    (∀ x ∈ l, (pyHash x).isSome) → pyHashList l = some (l.filterMap pyHash) := by
  intro l
  induction l with
  | nil => intro _; simp [pyHashList]
  | cons x xs ih =>
    intro h
    obtain ⟨hx, hhx⟩ := Option.isSome_iff_exists.1 (h x (List.mem_cons_self x xs))
    rw [List.filterMap_cons]
    simp only [pyHashList, hhx, ih (fun y hy => h y (List.mem_cons_of_mem x hy))]

theorem pyHashList_none : ∀ (l : List PyVal),
    ¬ (∀ x ∈ l, (pyHash x).isSome) → pyHashList l = none := by
  intro l
  induction l with
  | nil => intro h; exact absurd (fun x hx => absurd hx (List.not_mem_nil x)) h
  | cons x xs ih =>
    intro h
    by_cases hx : (pyHash x).isSome
    · have hxs : ¬ ∀ y ∈ xs, (pyHash y).isSome := by
        intro hall
        exact h (fun y hy => by
          rcases List.mem_cons.1 hy with rfl | hmem
          · exact hx
          · exact hall y hmem)
      obtain ⟨hxv, hhx⟩ := Option.isSome_iff_exists.1 hx
      simp only [pyHashList, hhx, ih hxs]
    · have hnone : pyHash x = none := Option.not_isSome_iff_eq_none.1 hx
      simp only [pyHashList, hnone]

theorem frozenHash_perm (kw1 kw2 : List (PyVal × PyVal)) (hperm : kw1.Perm kw2) :
    frozenHash kw1 = frozenHash kw2 := by
  have htp : (tuplingPairs kw1).Perm (tuplingPairs kw2) := by
    rw [tuplingPairs_eq_map, tuplingPairs_eq_map]
    exact hperm.map _
  unfold frozenHash
  by_cases hall : ∀ x ∈ tuplingPairs kw1, (pyHash x).isSome
  · have hall2 : ∀ x ∈ tuplingPairs kw2, (pyHash x).isSome := by
      intro x hx
      exact hall x (htp.mem_iff.2 hx)
    rw [pyHashList_eq_filterMap _ hall, pyHashList_eq_filterMap _ hall2]
    simp only [Option.map_some']
    have hsum : ((tuplingPairs kw1).filterMap pyHash).sum =
        ((tuplingPairs kw2).filterMap pyHash).sum := (htp.filterMap pyHash).sum_eq
    rw [hsum]
  · have hall2 : ¬ ∀ x ∈ tuplingPairs kw2, (pyHash x).isSome := by
      intro hall2
      exact hall (fun x hx => hall2 x (htp.mem_iff.1 hx))
    rw [pyHashList_none _ hall, pyHashList_none _ hall2]

theorem pyEq_pdict_of_perm (kw1 kw2 : List (PyVal × PyVal)) (hperm : kw1.Perm kw2)
    (hdk : distinctKeysB kw1 = true) (hwf : wfPairs kw1 = true) :
    pyEq (.pdict kw1) (.pdict kw2) = true := by
  simp only [pyEq, Bool.and_eq_true]
  constructor
  · exact beq_iff_eq.2 hperm.length_eq
  · apply pySubDict_of_all
    intro kv hkv
    have hkv2 : kv ∈ kw2 := hperm.subset hkv
    obtain ⟨s, t, hst⟩ := List.append_of_mem hkv2
    have hpw1 := (distinctKeys_pairwise kw1).1 hdk
    have hpw2 := (hperm.pairwise_iff (fun hab => ⟨hab.2, hab.1⟩)).1 hpw1
    rw [hst] at hpw2
    rw [hst]
    have hpre : ∀ kv2 ∈ s, pyEq kv2.1 kv.1 = false := by
      intro kv2 hkv2s
      exact ((List.pairwise_append.1 hpw2).2.2 kv2 hkv2s kv (List.mem_cons_self _ _)).1
    have hkwf := wfPairs_mem kw1 hwf kv hkv
    exact pyFindEq_of_pre s kv.1 kv.2 t hpre
      (pyEq_refl (sizeOf kv.1) kv.1 (le_refl _) hkwf.1)
      (pyEq_refl (sizeOf kv.2) kv.2 (le_refl _) hkwf.2)

/-- C1 (counterexample): a configuration holding a list and the same
configuration holding a tuple of the same elements hash identically under
`_FrozenKwargs.__hash__` (which tuples lists), but `_FrozenKwargs`
inherits `dict.__eq__`, under which a list and a tuple are unequal — so
the `lru_cache` lookup misses and a second, distinct client handle is
opened. -/
theorem claim_C1_counterexample :
    frozenHash [(PyVal.pstr "a", PyVal.plist [PyVal.pint 1, PyVal.pint 2])] =
      frozenHash [(PyVal.pstr "a", PyVal.ptuple [PyVal.pint 1, PyVal.pint 2])] ∧
    (get_client [(PyVal.pstr "a", PyVal.ptuple [PyVal.pint 1, PyVal.pint 2])]
        (get_client [(PyVal.pstr "a", PyVal.plist [PyVal.pint 1, PyVal.pint 2])]
          emptyCache).2).1 ≠
      (get_client [(PyVal.pstr "a", PyVal.plist [PyVal.pint 1, PyVal.pint 2])]
        emptyCache).1 := by
  constructor
  · simp [frozenHash, tuplingPairs, recursive_tupling, tuplingList, pyHashList, pyHash]
  · simp [get_client, cache_inner, emptyCache, keyMatch, frozenHash, pyEq, pySubDict,
      pyFindEq, pyEqList, tuplingPairs, recursive_tupling, tuplingList, pyHashList,
      pyHash, _CACHE_SIZE]

/-- C1 (amended): two connection configurations that are permutations of
one another at the top level (same entries, different key order) — with
the Python-dict invariants that keys are pairwise distinct and every
nested dict is well formed — hash equal and compare equal, so the second
`_get_client` call is a cache hit returning the handle opened by the
first.  List-vs-tuple variants of a value, by contrast, hash equal but
compare unequal and therefore miss. -/
theorem claim_C1_amended (kw1 kw2 : List (PyVal × PyVal))
    (hperm : kw1.Perm kw2)
    (hdk : distinctKeysB kw1 = true)
    (hwf : wfPairs kw1 = true) :
    (get_client kw2 (get_client kw1 emptyCache).2).1 = (get_client kw1 emptyCache).1 := by
  have hmatch : keyMatch kw1 kw2 = true := by
    unfold keyMatch
    rw [frozenHash_perm kw1 kw2 hperm]
    simp only [beq_self_eq_true, Bool.true_and]
    exact pyEq_pdict_of_perm kw1 kw2 hperm hdk hwf
  have h1 : get_client kw1 emptyCache = (0, ⟨[(kw1, 0)], 1, [0], []⟩) := rfl
  rw [h1]
  show (cache_inner kw2 ⟨[(kw1, 0)], 1, [0], []⟩).1 = 0
  unfold cache_inner
  have hfind : ([((kw1 : List (PyVal × PyVal)), (0 : Nat))]).find?
      (fun e => keyMatch e.1 kw2) = some (kw1, 0) :=
    List.find?_cons_of_pos _ hmatch
  simp only [hfind]

/-- Witness for the amended C1: a two-entry configuration requested once
in each key order returns the same cached handle. -/
theorem claim_C1_witness :
    (get_client [(PyVal.pstr "b", PyVal.pint 2), (PyVal.pstr "a", PyVal.pint 1)]
        (get_client [(PyVal.pstr "a", PyVal.pint 1), (PyVal.pstr "b", PyVal.pint 2)]
          emptyCache).2).1 =
      (get_client [(PyVal.pstr "a", PyVal.pint 1), (PyVal.pstr "b", PyVal.pint 2)]
        emptyCache).1 :=
  claim_C1_amended
    [(PyVal.pstr "a", PyVal.pint 1), (PyVal.pstr "b", PyVal.pint 2)]
    [(PyVal.pstr "b", PyVal.pint 2), (PyVal.pstr "a", PyVal.pint 1)]
    (List.Perm.swap (PyVal.pstr "b", PyVal.pint 2) (PyVal.pstr "a", PyVal.pint 1) [])
    (by simp [distinctKeysB, pyEq])
    (by simp [wfPairs, wfB])

/-- C8 (counterexample): two configurations equal in value whose scalar
values differ in exact type — an int `1` and the bool `True` — are NOT
distinct cache keys: `hash(True) == hash(1)` and `True == 1` in Python,
and the `typed=True` of the `lru_cache` only inspects the type of the
single positional argument, which is always `_FrozenKwargs`; the second
call therefore hits the first entry and returns the same handle. -/
theorem claim_C8_counterexample :
    (get_client [(PyVal.pstr "x", PyVal.pbool true)]
        (get_client [(PyVal.pstr "x", PyVal.pint 1)] emptyCache).2).1 =
      (get_client [(PyVal.pstr "x", PyVal.pint 1)] emptyCache).1 := by
  simp [get_client, cache_inner, emptyCache, keyMatch, frozenHash, pyEq, pySubDict,
    pyFindEq, pyEqList, tuplingPairs, recursive_tupling, tuplingList, pyHashList,
    pyHash, _CACHE_SIZE]

/-- C8 (amended): requesting `{"x": 1}` and then `{"x": True}` yields the
same handle, leaves a single cache entry and opens a single client:
value-equal configurations with different scalar types share one cache
entry. -/
theorem claim_C8_amended :
    (get_client [(PyVal.pstr "x", PyVal.pbool true)]
        (get_client [(PyVal.pstr "x", PyVal.pint 1)] emptyCache).2).1 =
      (get_client [(PyVal.pstr "x", PyVal.pint 1)] emptyCache).1 ∧
    (get_client [(PyVal.pstr "x", PyVal.pbool true)]
        (get_client [(PyVal.pstr "x", PyVal.pint 1)] emptyCache).2).2.nextHandle = 1 ∧
    (get_client [(PyVal.pstr "x", PyVal.pbool true)]
        (get_client [(PyVal.pstr "x", PyVal.pint 1)] emptyCache).2).2.entries.length
      = 1 := by
  refine ⟨?_, ?_, ?_⟩ <;>
    simp [get_client, cache_inner, emptyCache, keyMatch, frozenHash, pyEq, pySubDict,
      pyFindEq, pyEqList, tuplingPairs, recursive_tupling, tuplingList, pyHashList,
      pyHash, _CACHE_SIZE]
